import Mathlib

set_option maxRecDepth 100000

/-
  Verification development for the step-by-step QR Code generation engine
  (instrumented-qrcodegen.ts).  The data model and operations below are a
  shallow embedding of the TypeScript source: the module (cell) class
  hierarchy becomes an inductive type, the 2-D `Array<Array<Module>>` grid
  becomes `List (List Module)`, JavaScript `throw` becomes `Option`, and the
  int arithmetic (all values involved are small non-negative integers)
  becomes `Nat`/`Int` arithmetic.
-/

namespace Qrgen

/-- Kind tag for a filled module, mirroring the class hierarchy of the source:
`FinderModule`, `SeparatorModule`, `AlignmentModule`, `FormatInfoModule`,
`VersionInfoModule`, `TimingModule`, `BlackModule` are the subclasses of
`FunctionModule`; `CodewordModule`, `RemainderModule` and the plain
`FilledModule` (created by `makeMask`) are filled but not function modules. -/
inductive ModKind
  | finderMod
  | separatorMod
  | alignmentMod
  | formatInfoMod
  | versionInfoMod
  | timingMod
  | blackMod
  | codewordMod
  | remainderMod
  | plainMod
deriving DecidableEq

/-- One grid cell: either still `UnfilledModule`, or a `FilledModule` carrying
its dynamic class (`kind`), its mutable `color`, and the `isNew` flag. -/
inductive Module
  | unfilled
  | filledM (kind : ModKind) (color : Bool) (isNew : Bool)
deriving DecidableEq

/-- Whether the kind is a `FunctionModule` subclass. -/
def ModKind.isFunction : ModKind → Bool
  | .codewordMod => false
  | .remainderMod => false
  | .plainMod => false
  | _ => true

/-- `m instanceof FilledModule`. -/
def Module.isFilled : Module → Bool
  | .unfilled => false
  | .filledM _ _ _ => true

/-- `m instanceof UnfilledModule`. -/
def Module.isUnfilled : Module → Bool
  | .unfilled => true
  | .filledM _ _ _ => false

/-- `m instanceof FunctionModule`. -/
def Module.isFunction : Module → Bool
  | .unfilled => false
  | .filledM k _ _ => k.isFunction

/-- The `color` field of a filled module (`false` when the cell is unfilled;
an unfilled cell's color is never read by the source). -/
def Module.colorD : Module → Bool
  | .unfilled => false
  | .filledM _ c _ => c

/-- The dynamic class tag of a filled module (`none` when unfilled). -/
def Module.kindD : Module → Option ModKind
  | .unfilled => none
  | .filledM k _ _ => some k

/-- The `ErrorCorrectionLevel` enum: the four fixed constants LOW, MEDIUM,
QUARTILE, HIGH of the source. -/
inductive ErrorCorrectionLevel
  | LOW
  | MEDIUM
  | QUARTILE
  | HIGH
deriving DecidableEq

/-- The `ordinal` field of each error-correction level constant. -/
def ErrorCorrectionLevel.ordinal : ErrorCorrectionLevel → Nat
  | .LOW => 0
  | .MEDIUM => 1
  | .QUARTILE => 2
  | .HIGH => 3

/-- The `formatBits` field of each error-correction level constant
(LOW = 1, MEDIUM = 0, QUARTILE = 3, HIGH = 2). -/
def ErrorCorrectionLevel.formatBits : ErrorCorrectionLevel → Nat
  | .LOW => 1
  | .MEDIUM => 0
  | .QUARTILE => 3
  | .HIGH => 2

/-- The `QrCode` object: version, error-correction level, `size` and the
column-major grid `modules` (the source indexes `modules[x][y]`). -/
structure QrCode where
  version : Nat
  errorCorrectionLevel : ErrorCorrectionLevel
  size : Nat
  modules : List (List Module)
deriving DecidableEq

/-- `QrCode.MIN_VERSION`. -/
def QrCode.MIN_VERSION : Nat := 1

/-- `QrCode.MAX_VERSION`. -/
def QrCode.MAX_VERSION : Nat := 40

/-- `QrCode.PENALTY_N4`. -/
def QrCode.PENALTY_N4 : Nat := 10

/-- The `QrCode` constructor: `size = version*4+17`; one column of `size`
unfilled modules is built and `size` copies of it are pushed, giving a
`size × size` grid of `UnfilledModule`s.  Note the source constructor performs
no range check on `version`. -/
def QrCode.new (version : Nat) (ecl : ErrorCorrectionLevel) : QrCode :=
  { version := version
    errorCorrectionLevel := ecl
    size := version * 4 + 17
    modules := List.replicate (version * 4 + 17)
      (List.replicate (version * 4 + 17) Module.unfilled) }

/-- Read `modules[x][y]` (out-of-range reads yield `unfilled`, which never
happens for in-range coordinates on a well-shaped grid). -/
def QrCode.module (qr : QrCode) (x y : Nat) : Module :=
  (qr.modules.getD x []).getD y Module.unfilled

/-- Write `modules[x][y] = m` (no-op when out of range of the lists). -/
def QrCode.setModule (qr : QrCode) (x y : Nat) (m : Module) : QrCode :=
  { qr with modules := qr.modules.set x ((qr.modules.getD x []).set y m) }

/-- A single point write: x-coordinate, y-coordinate, module value. -/
abbrev Write := Nat × Nat × Module

/-- Perform a sequence of point writes in order. -/
def QrCode.applyWrites (qr : QrCode) (ws : List Write) : QrCode :=
  ws.foldl (fun g w => g.setModule w.1 w.2.1 w.2.2) qr

/-- `QrCode.getBit(x, i) = ((x >>> i) & 1) != 0`. -/
def QrCode.getBit (x i : Nat) : Bool :=
  ((x >>> i) &&& 1) != 0

/-- `QrCode.getNumRawDataModules`: throws ("none") when the version is outside
[MIN_VERSION, MAX_VERSION], otherwise the closed-form capacity. -/
def QrCode.getNumRawDataModules (ver : Nat) : Option Nat :=
  if ver < QrCode.MIN_VERSION ∨ ver > QrCode.MAX_VERSION then none
  else
    let result := (16 * ver + 128) * ver + 64
    let result :=
      if ver ≥ 2 then
        let numAlign := ver / 7 + 2
        let r := result - ((25 * numAlign - 10) * numAlign - 55)
        if ver ≥ 7 then r - 36 else r
      else result
    some result

/-- The writes performed by `drawTimingPatterns`: for each `i < size`,
`modules[6][i]` and `modules[i][6]` become timing modules of color
`i % 2 == 0`. -/
def timingWrites (size : Nat) : List Write :=
  (List.range size).flatMap (fun i =>
    [(6, i, Module.filledM .timingMod (i % 2 == 0) true),
     (i, 6, Module.filledM .timingMod (i % 2 == 0) true)])

/-- `drawTimingPatterns`. -/
def QrCode.drawTimingPatterns (qr : QrCode) : QrCode :=
  qr.applyWrites (timingWrites qr.size)

/-- The writes of `drawFinderPatterns`: 9×9 neighbourhoods of the three
centers (3,3), (size-4,3), (3,size-4); cells at Chebyshev distance ≤ 3 become
finder modules (dark unless the distance is 2 or 4), the rest separator
modules; out-of-range cells are skipped.  Coordinate arithmetic is done in
`Int` because `dx`,`dy` range over [-4,4]. -/
def finderWrites (size : Nat) : List Write :=
  ([(3, 3), ((size : Int) - 4, 3), (3, (size : Int) - 4)] : List (Int × Int)).flatMap
    (fun c =>
      (List.range 9).flatMap (fun dyi =>
        (List.range 9).filterMap (fun dxi =>
          let dx : Int := (dxi : Int) - 4
          let dy : Int := (dyi : Int) - 4
          let dist : Int := max dx.natAbs dy.natAbs
          let x : Int := c.1 + dx
          let y : Int := c.2 + dy
          if 0 ≤ x ∧ x < (size : Int) ∧ 0 ≤ y ∧ y < (size : Int) then
            if dist ≤ 3 then
              some (x.toNat, y.toNat,
                Module.filledM .finderMod (dist != 2 && dist != 4) true)
            else
              some (x.toNat, y.toNat, Module.filledM .separatorMod false true)
          else none)))

/-- `drawFinderPatterns`. -/
def QrCode.drawFinderPatterns (qr : QrCode) : QrCode :=
  qr.applyWrites (finderWrites qr.size)

/-- The alignment-pattern anchor-position loop: starting from `[6]`, positions
are spliced in at index 1, descending from `size - 7` in steps of `step`,
until `numAlign` positions are present (the loop body runs exactly
`numAlign - 1` times, rendered here as a structural counter). -/
def alignLoop : Nat → Nat → Nat → List Nat → List Nat
  | 0, _, _, acc => acc
  | n + 1, pos, step, acc =>
      alignLoop n (pos - step) step (acc.take 1 ++ pos :: acc.drop 1)

/-- The anchor positions computed by `drawAlignmentPatterns` (version ≥ 2).
`step` is 26 for version 32, else `2 * ⌈(size-13)/(numAlign*2-2)⌉`. -/
def alignPatPos (version size : Nat) : List Nat :=
  let numAlign := version / 7 + 2
  let step :=
    if version = 32 then 26
    else ((size - 13) + (numAlign * 2 - 2) - 1) / (numAlign * 2 - 2) * 2
  alignLoop (numAlign - 1) (size - 7) step [6]

/-- The writes of `drawAlignmentPatterns`: for every anchor pair except the
three coinciding with finder patterns, a 5×5 block of alignment modules (dark
unless the Chebyshev distance from the center is exactly 1). -/
def alignmentWrites (version size : Nat) : List Write :=
  if version = 1 then []
  else
    let numAlign := version / 7 + 2
    let ps := alignPatPos version size
    ps.enum.flatMap (fun ic =>
      ps.enum.flatMap (fun jc =>
        let i := ic.1; let cx := ic.2
        let j := jc.1; let cy := jc.2
        if (i = 0 ∧ j = 0) ∨ (i = 0 ∧ j = numAlign - 1) ∨
           (i = numAlign - 1 ∧ j = 0) then []
        else
          (List.range 5).flatMap (fun dyi =>
            (List.range 5).map (fun dxi =>
              ((cx + dxi - 2 : Nat), (cy + dyi - 2 : Nat),
                Module.filledM .alignmentMod
                  (max (Int.natAbs ((dxi : Int) - 2)) (Int.natAbs ((dyi : Int) - 2)) != 1)
                  true)))))

/-- `drawAlignmentPatterns`. -/
def QrCode.drawAlignmentPatterns (qr : QrCode) : QrCode :=
  qr.applyWrites (alignmentWrites qr.version qr.size)

/-- The 15-bit format value computed by `drawFormatBits`:
`bits = 0` for the blank sentinel (mask = -1, rendered as `none`); otherwise
`data = formatBits << 3 | mask`, ten rounds of
`rem = (rem << 1) ^ ((rem >>> 9) * 0x537)`, and `(data << 10 | rem) ^ 0x5412`. -/
def QrCode.formatBitsValue (ecl : ErrorCorrectionLevel) : Option Nat → Nat
  | none => 0
  | some mask =>
      let data := ecl.formatBits <<< 3 ||| mask
      let rem := (List.range 10).foldl
        (fun rem _ => (rem <<< 1) ^^^ ((rem >>> 9) * 0x537)) data
      (data <<< 10 ||| rem) ^^^ 0x5412

/-- The writes of `drawFormatBits` given the computed 15-bit value: two
mirrored strips of `FormatInfoModule`s plus the fixed `BlackModule` at
`(8, size-8)`. -/
def formatWrites (size bits : Nat) : List Write :=
  ((List.range 6).map (fun i =>
      ((8 : Nat), i, Module.filledM .formatInfoMod (QrCode.getBit bits i) true)))
  ++ [(8, 7, Module.filledM .formatInfoMod (QrCode.getBit bits 6) true),
      (8, 8, Module.filledM .formatInfoMod (QrCode.getBit bits 7) true),
      (7, 8, Module.filledM .formatInfoMod (QrCode.getBit bits 8) true)]
  ++ (List.range' 9 6).map (fun i =>
      (14 - i, 8, Module.filledM .formatInfoMod (QrCode.getBit bits i) true))
  ++ (List.range 8).map (fun i =>
      (size - 1 - i, 8, Module.filledM .formatInfoMod (QrCode.getBit bits i) true))
  ++ (List.range' 8 7).map (fun i =>
      ((8 : Nat), size - 15 + i, Module.filledM .formatInfoMod (QrCode.getBit bits i) true))
  ++ [(8, size - 8, Module.filledM .blackMod true true)]

/-- `drawFormatBits` (mask index -1 of the source is rendered as `none`):
computes the 15-bit value, fails on the `bits >>> 15 != 0` assertion, then
performs the format writes. -/
def QrCode.drawFormatBits (qr : QrCode) (mask : Option Nat) : Option QrCode :=
  let bits := QrCode.formatBitsValue qr.errorCorrectionLevel mask
  if bits >>> 15 != 0 then none
  else some (qr.applyWrites (formatWrites qr.size bits))

/-- The writes of `drawVersionInformation` given the 18-bit value: two
mirrored 3×6 blocks. -/
def versionWrites (size bits : Nat) : List Write :=
  (List.range 18).flatMap (fun i =>
    let bt := QrCode.getBit bits i
    let a := size - 11 + i % 3
    let b := i / 3
    [(a, b, Module.filledM .versionInfoMod bt true),
     (b, a, Module.filledM .versionInfoMod bt true)])

/-- `drawVersionInformation`: a no-op for version < 7; otherwise twelve rounds
of `rem = (rem << 1) ^ ((rem >>> 11) * 0x1F25)` over the version, the 18-bit
value `version << 12 | rem`, the `bits >>> 18 != 0` assertion, then the
writes. -/
def QrCode.drawVersionInformation (qr : QrCode) : Option QrCode :=
  if qr.version < 7 then some qr
  else
    let rem := (List.range 12).foldl
      (fun rem _ => (rem <<< 1) ^^^ ((rem >>> 11) * 0x1F25)) qr.version
    let bits := qr.version <<< 12 ||| rem
    if bits >>> 18 != 0 then none
    else some (qr.applyWrites (versionWrites qr.size bits))

/-- The full structural-pattern pipeline: construct a fresh grid, then draw
timing patterns, finder patterns (with separators), alignment patterns,
format-information bits (for a given mask index, `none` = the blank -1
sentinel) and version information. -/
def buildFunctionPatterns (version : Nat) (ecl : ErrorCorrectionLevel)
    (mask : Option Nat) : Option QrCode := do
  let g := (((QrCode.new version ecl).drawTimingPatterns).drawFinderPatterns).drawAlignmentPatterns
  let g ← g.drawFormatBits mask
  g.drawVersionInformation

/-- The sequence of `right` values of the strip loop of `makeZigZagScan`:
`right` starts at its argument and decreases by 2, with the column-6 strip
replaced by column 5, until `right < 1`. -/
def zigZagRights (r : Nat) : List Nat :=
  if h : 1 ≤ r then
    let r' := if r = 6 then 5 else r
    r' :: zigZagRights (r' - 2)
  else []
termination_by r
decreasing_by
  split <;> omega

/-- One 2-column strip of the zig-zag scan: for each `vert` and `j ∈ {0,1}`,
the cell `(right - j, y)` (with `y` running upward when `((right+1) & 2) == 0`)
is collected when it is still unfilled. -/
def scanStrip (qr : QrCode) (right : Nat) : List (Nat × Nat) :=
  (List.range qr.size).flatMap (fun vert =>
    (List.range 2).filterMap (fun j =>
      let x := right - j
      let upward := ((right + 1) &&& 2) == 0
      let y := if upward then qr.size - 1 - vert else vert
      if (qr.module x y).isUnfilled then some (x, y) else none))

/-- `makeZigZagScan`: the concatenation of the strips for
`right = size-1, size-3, ...` (the push-accumulation of the source is rendered
as `flatMap`/`filterMap` in the same iteration order). -/
def QrCode.makeZigZagScan (qr : QrCode) : List (Nat × Nat) :=
  (zigZagRights (qr.size - 1)).flatMap (scanStrip qr)

/-- The writes of `drawCodewords` (the `forEach` over the scan with its
running index, starting at `i`): scan position `i` receives bit `7 - (i & 7)`
of byte `i >>> 3` as a `CodewordModule` while `i < data.length*8`, and a
`RemainderModule` (light) afterwards. -/
def codewordWrites (data : List Nat) : Nat → List (Nat × Nat) → List Write
  | _, [] => []
  | i, xy :: rest =>
      (if i < data.length * 8 then
        (xy.1, xy.2,
          Module.filledM .codewordMod
            (QrCode.getBit (data.getD (i >>> 3) 0) (7 - (i &&& 7))) true)
      else
        (xy.1, xy.2, Module.filledM .remainderMod false true))
        :: codewordWrites data (i + 1) rest

/-- `drawCodewords`: throws ("none") unless
`data.length == ⌊getNumRawDataModules(version) / 8⌋`, then writes the bits
along the given zig-zag scan. -/
def QrCode.drawCodewords (qr : QrCode) (data : List Nat)
    (zigZagScan : List (Nat × Nat)) : Option QrCode := do
  let raw ← QrCode.getNumRawDataModules qr.version
  if data.length ≠ raw / 8 then none
  else some (qr.applyWrites (codewordWrites data 0 zigZagScan))

/-- Read back, in scan order, the bits stored at the first `8 * numBytes` scan
cells, reassembling each byte MSB-first. -/
def readCodewordsBack (qr : QrCode) (scan : List (Nat × Nat)) (numBytes : Nat) :
    List Nat :=
  (List.range numBytes).map (fun k =>
    (List.range 8).foldl (fun acc j =>
      acc * 2 +
        (if (qr.module (scan.getD (8 * k + j) (0, 0)).1
              (scan.getD (8 * k + j) (0, 0)).2).colorD then 1 else 0)) 0)

/-- The mask-pattern predicate of `makeMask`'s switch (the default branch
throws; `makeMask` rejects indices ≥ 8 before this is ever evaluated, so the
catch-all value is never observable). -/
def maskInvertAt (mask x y : Nat) : Bool :=
  match mask with
  | 0 => (x + y) % 2 == 0
  | 1 => y % 2 == 0
  | 2 => x % 3 == 0
  | 3 => (x + y) % 3 == 0
  | 4 => (x / 3 + y / 2) % 2 == 0
  | 5 => (x * y % 2 + x * y % 3) == 0
  | 6 => (x * y % 2 + x * y % 3) % 2 == 0
  | 7 => ((x + y) % 2 + x * y % 3) % 2 == 0
  | _ => false

/-- The grid produced by `makeMask` for a valid index: a fresh all-unfilled
grid in which every cell whose counterpart in `qr` is not a function module
becomes a plain `FilledModule` of color `maskInvertAt mask x y`. -/
def QrCode.makeMaskRaw (qr : QrCode) (mask : Nat) : QrCode :=
  (List.range qr.size).foldl (fun result x =>
    (List.range qr.size).foldl (fun result y =>
      if !(qr.module x y).isFunction then
        result.setModule x y (Module.filledM .plainMod (maskInvertAt mask x y) true)
      else result) result)
    (QrCode.new qr.version qr.errorCorrectionLevel)

/-- `makeMask`: the switch of the source throws for any index outside 0..7
(on the first cell), rendered as a guard up front. -/
def QrCode.makeMask (qr : QrCode) (mask : Nat) : Option QrCode :=
  if mask ≥ 8 then none else some (qr.makeMaskRaw mask)

/-- `applyMask`: for every cell whose mask counterpart is a `FilledModule`,
the target cell's color is xor-ed with the mask color.  (When the target cell
is not filled the source's unchecked cast writes a `color` property onto a
non-`FilledModule` object; that property is never read through any
`instanceof FilledModule` test, so the cell is left unchanged here.) -/
def QrCode.applyMask (qr mask : QrCode) : QrCode :=
  (List.range qr.size).foldl (fun g x =>
    (List.range qr.size).foldl (fun g y =>
      match mask.module x y with
      | .filledM _ mc _ =>
          match g.module x y with
          | .filledM k c n => g.setModule x y (Module.filledM k (c != mc) n)
          | .unfilled => g
      | .unfilled => g) g) qr

/-- The `colors` snapshot of `computePenalties`:
`cell instanceof FilledModule && cell.color` per cell. -/
def QrCode.colorsGrid (qr : QrCode) : List (List Bool) :=
  qr.modules.map (fun column => column.map (fun cell => cell.isFilled && cell.colorD))

/-- The count of dark modules (`black` in `computePenalties`). -/
def QrCode.countBlackModules (qr : QrCode) : Nat :=
  (qr.colorsGrid.map (fun column => column.count true)).sum

/-- The `while (|black*20 - total*10| > (k+1)*total) k++` loop of penalty
rule 4.  (For `total = 0` and `dist > 0` the source loop would not terminate;
in `computePenalties` we always have `total = size² ≥ 289`, so the guard
branch added for totality is unreachable there.) -/
def rule4Go (dist total k : Nat) : Nat :=
  if dist > (k + 1) * total then
    if total = 0 then 0 else rule4Go dist total (k + 1)
  else k
termination_by dist - k * total
decreasing_by
  rename_i h1 h2
  simp only [Nat.succ_mul] at *
  omega

/-- The rule-4 portion of `computePenalties`: `black` dark cells out of
`total = size²` contribute `k * PENALTY_N4` where `k` is found by the loop. -/
def QrCode.computePenalty4 (qr : QrCode) : Nat :=
  let black := qr.countBlackModules
  let total := qr.size * qr.size
  let dist := ((black : Int) * 20 - (total : Int) * 10).natAbs
  rule4Go dist total 0 * QrCode.PENALTY_N4

namespace ReedSolomonGenerator

/-- The inner loop of the Galois-field multiply: Russian-peasant
multiplication modulo the primitive polynomial 0x11D, eight rounds over the
bits of `y` from bit 7 down to bit 0. -/
def multiplyRaw (x y : Nat) : Nat :=
  (List.range 8).foldl (fun z k =>
    let i := 7 - k
    let z2 := (z <<< 1) ^^^ ((z >>> 7) * 0x11D)
    z2 ^^^ (((y >>> i) &&& 1) * x)) 0

/-- `ReedSolomonGenerator.multiply`: throws ("none") when an operand is
outside [0,255] or when the result assertion `z >>> 8 != 0` fires. -/
def multiply (x y : Nat) : Option Nat :=
  if x >>> 8 != 0 ∨ y >>> 8 != 0 then none
  else if multiplyRaw x y >>> 8 != 0 then none
  else some (multiplyRaw x y)

/-- One pass of the generator-polynomial construction loop: each coefficient
is multiplied by `root` and xor-ed with the (original) next coefficient; the
last coefficient is only multiplied. -/
def rsPassAux (root : Nat) : List Nat → Option (List Nat)
  | [] => some []
  | [c] => (multiply c root).map (fun m => [m])
  | c :: c2 :: rest => do
      let m ← multiply c root
      let tail ← rsPassAux root (c2 :: rest)
      pure ((m ^^^ c2) :: tail)

/-- The outer constructor loop: `degree` passes, with
`root = multiply(root, 0x02)` after each pass. -/
def genLoop : Nat → Nat → List Nat → Option (List Nat)
  | 0, _, coefs => some coefs
  | n + 1, root, coefs => do
      let coefs2 ← rsPassAux root coefs
      let root2 ← multiply root 0x02
      genLoop n root2 coefs2

/-- The `ReedSolomonGenerator` constructor: throws ("none") when the degree is
outside [1,255]; otherwise starts from `x^(degree-1)`-style coefficients
`[0, ..., 0, 1]` and runs the loop. -/
def mkCoefficients (degree : Nat) : Option (List Nat) :=
  if degree < 1 ∨ degree > 255 then none
  else genLoop degree 1 (List.replicate (degree - 1) 0 ++ [1])

/-- The loop of `getRemainder` over the data bytes: shift the register,
xor `factor` times the generator into it. -/
def remainderLoop (coefficients : List Nat) : List Nat → List Nat → Option (List Nat)
  | [], result => some result
  | b :: rest, result => do
      let factor := b ^^^ result.headD 0
      let shifted := result.tail ++ [0]
      let result2 ← (coefficients.zip shifted).mapM
        (fun p => (multiply p.1 factor).map (fun m => p.2 ^^^ m))
      remainderLoop coefficients rest result2

/-- `ReedSolomonGenerator.getRemainder`: polynomial division of the data by
the generator, starting from an all-zero register. -/
def getRemainder (coefficients data : List Nat) : Option (List Nat) :=
  remainderLoop coefficients data (coefficients.map (fun _ => 0))

end ReedSolomonGenerator

/-! ### Specification-side definitions

These definitions transcribe formulas the way the specification words them;
the claims compare them with the definitions translated from the source. -/

/-- The format field exactly as the specification words it: a 15-bit field
`(levelFormatCode<<3 | maskIndex)` with a 10-bit remainder computed by 10
rounds of `rem = (rem<<1) ^ ((rem>>>9)&1)*0x537`, combined as
`(data<<10 | rem) ^ 0x5412`. -/
def formatInfoSpec (ecl : ErrorCorrectionLevel) (mask : Nat) : Nat :=
  let data := ecl.formatBits <<< 3 ||| mask
  let rem := (List.range 10).foldl
    (fun rem _ => (rem <<< 1) ^^^ (((rem >>> 9) &&& 1) * 0x537)) data
  (data <<< 10 ||| rem) ^^^ 0x5412

/-- The raw-capacity closed form exactly as the specification words it, in
exact integer arithmetic: `(16·v+128)·v+64`, minus `(25·a-10)·a-55` with
`a = ⌊v/7⌋+2` for `v ≥ 2`, minus a further 36 exactly when `v ≥ 7`. -/
def rawModulesSpec (v : Nat) : Int :=
  (16 * (v : Int) + 128) * v + 64 -
    (if 2 ≤ v then
      (25 * ((v : Int) / 7 + 2) - 10) * ((v : Int) / 7 + 2) - 55
    else 0) -
    (if 7 ≤ v then 36 else 0)

/-! ### Predicates and counting functions used by the proofs -/

/-- The grid lists have the advertised `size × size` shape. -/
def QrCode.WellShaped (qr : QrCode) : Prop :=
  qr.modules.length = qr.size ∧ ∀ col ∈ qr.modules, col.length = qr.size

/-- The number of unfilled cells in column `x` (rows `0..size-1`). -/
def unfilledInColumn (qr : QrCode) (x : Nat) : Nat :=
  ∑ y ∈ Finset.range qr.size, (if (qr.module x y).isUnfilled then 1 else 0)

/-- The number of unfilled cells of the whole grid. -/
def unfilledTotal (qr : QrCode) : Nat :=
  ∑ x ∈ Finset.range qr.size, unfilledInColumn qr x

/-! ### Computational devices for kernel-checked facts

The definitions below are not part of the source embedding; they are
evaluation-friendly reformulations (balanced or accumulator-forced loops over
small `Nat` arithmetic) used to let `decide` establish per-version counting
facts and the GF(256) multiplication table.  Each is tied to the faithful
definitions above by the lemmas that follow. -/

/-- The grid position of a write. -/
def posW (w : Write) : Nat × Nat := (w.1, w.2.1)

/-- All function-pattern writes of the construction pipeline, concatenated in
drawing order (format bits use the precomputed value `fbits`, version
information `vbits`; no version block is written for version < 7). -/
def structuralWrites (v n fbits vbits : Nat) : List Write :=
  timingWrites n ++ finderWrites n ++ alignmentWrites v n ++ formatWrites n fbits ++
    (if v < 7 then [] else versionWrites n vbits)

/-- The 18-bit version-information value computed by `drawVersionInformation`:
twelve rounds of `rem = (rem << 1) ^ ((rem >>> 11) * 0x1F25)` over the
version, combined as `version << 12 | rem`. -/
def versionBitsValue (v : Nat) : Nat :=
  let rem := (List.range 12).foldl
    (fun rem _ => (rem <<< 1) ^^^ ((rem >>> 11) * 0x1F25)) v
  v <<< 12 ||| rem

/-- The per-cell effect of `applyMask` on a module value: when the mask cell
is filled, a filled target cell has its color xor-ed, and any other target is
left alone. -/
def maskStep : Module → Module → Module
  | Module.filledM _ mc _, Module.filledM k c n => Module.filledM k (c != mc) n
  | _, m => m

/-- One iteration of the `applyMask` double loop as a standalone grid
operation. -/
def maskStepGrid (mq g : QrCode) (a b : Nat) : QrCode :=
  match mq.module a b with
  | Module.filledM _ mc _ =>
      match g.module a b with
      | Module.filledM k c n => g.setModule a b (Module.filledM k (c != mc) n)
      | Module.unfilled => g
  | Module.unfilled => g

/-- The module written by `drawCodewords` at running scan index `i`. -/
def cwValue (data : List Nat) (i : Nat) : Module :=
  if i < data.length * 8 then
    Module.filledM .codewordMod
      (QrCode.getBit (data.getD (i >>> 3) 0) (7 - (i &&& 7))) true
  else Module.filledM .remainderMod false true

/-- Fold a position list into a slot mask: each in-bounds cell `(x, y)` owns a
16-bit slot at index `x * n + y`, and its slot is set to 1 on the cell's first
occurrence.  The duplicate test forces the accumulator at every step. -/
def slotFold (n : Nat) (ps : List (Nat × Nat)) : Nat → Nat :=
  @List.rec (Nat × Nat) (fun _ => Nat → Nat) (fun acc => acc)
    (fun p _ ih acc =>
      cond (Nat.blt p.1 n && Nat.blt p.2 n)
        (cond (Nat.beq (acc &&& (1 <<< ((p.1 * n + p.2) * 16))) 0)
          (ih (acc + (1 <<< ((p.1 * n + p.2) * 16))))
          (ih acc))
        (ih acc)) ps

/-- The number of distinct in-bounds positions in `ps`: since every slot of the
mask holds 0 or 1 and there are fewer than 65535 slots in use, the base-2¹⁶
digit sum of the mask — its remainder modulo 2¹⁶ - 1 — counts the slots. -/
def distinctCount (n : Nat) (ps : List (Nat × Nat)) : Nat :=
  slotFold n ps 0 % 65535

/-- Per-version check: the number of distinct in-bounds function-pattern cells
plus the raw data-module capacity equals `size²`. -/
def versionCountCheck (v : Nat) : Bool :=
  Nat.beq
    (distinctCount (v * 4 + 17) ((structuralWrites v (v * 4 + 17) 0 0).map posW) +
      (QrCode.getNumRawDataModules v).getD 0)
    ((v * 4 + 17) * (v * 4 + 17))

/-- One round of the GF(256) multiply loop (the body of the `for` loop of
`ReedSolomonGenerator.multiply`). -/
def mstep (x y z i : Nat) : Nat :=
  ((z <<< 1) ^^^ ((z >>> 7) * 0x11D)) ^^^ (((y >>> i) &&& 1) * x)

/-- The eight rounds of the multiply loop, unrolled. -/
def mulF (x y : Nat) : Nat :=
  mstep x y (mstep x y (mstep x y (mstep x y (mstep x y (mstep x y (mstep x y
    (mstep x y 0 7) 6) 5) 4) 3) 2) 1) 0

/-- Check one multiplication pair: the product has at most 8 significant bits
and agrees with the product in the opposite order. -/
def mulPairOK (x y : Nat) : Bool :=
  Nat.blt (mulF x y) 256 && Nat.beq (mulF x y) (mulF y x)

/-- Check `mulPairOK x (x + j)` for all `j` below the argument. -/
def mulRowAll (x : Nat) : Nat → Bool :=
  @Nat.rec (fun _ => Bool) true (fun j ih => cond (mulPairOK x (x + j)) ih false)

/-- Check the rows `lo .. lo+n-1` of the multiplication table. -/
def mulRowsFrom (lo : Nat) : Nat → Bool :=
  @Nat.rec (fun _ => Bool) true
    (fun k ih => cond (mulRowAll (lo + k) (256 - (lo + k))) ih false)

/-! Kernel-checked, one version per declaration: the distinct-cell count of
the function patterns matches `getNumRawDataModules` for every version
1..40. -/

set_option maxHeartbeats 2000000000 in
theorem versionCount1 : versionCountCheck 1 = true := by decide

set_option maxHeartbeats 2000000000 in
theorem versionCount2 : versionCountCheck 2 = true := by decide

set_option maxHeartbeats 2000000000 in
theorem versionCount3 : versionCountCheck 3 = true := by decide

set_option maxHeartbeats 2000000000 in
theorem versionCount4 : versionCountCheck 4 = true := by decide

set_option maxHeartbeats 2000000000 in
theorem versionCount5 : versionCountCheck 5 = true := by decide

set_option maxHeartbeats 2000000000 in
theorem versionCount6 : versionCountCheck 6 = true := by decide

set_option maxHeartbeats 2000000000 in
theorem versionCount7 : versionCountCheck 7 = true := by decide

set_option maxHeartbeats 2000000000 in
theorem versionCount8 : versionCountCheck 8 = true := by decide

set_option maxHeartbeats 2000000000 in
theorem versionCount9 : versionCountCheck 9 = true := by decide

set_option maxHeartbeats 2000000000 in
theorem versionCount10 : versionCountCheck 10 = true := by decide

set_option maxHeartbeats 2000000000 in
theorem versionCount11 : versionCountCheck 11 = true := by decide

set_option maxHeartbeats 2000000000 in
theorem versionCount12 : versionCountCheck 12 = true := by decide

set_option maxHeartbeats 2000000000 in
theorem versionCount13 : versionCountCheck 13 = true := by decide

set_option maxHeartbeats 2000000000 in
theorem versionCount14 : versionCountCheck 14 = true := by decide

set_option maxHeartbeats 2000000000 in
theorem versionCount15 : versionCountCheck 15 = true := by decide

set_option maxHeartbeats 2000000000 in
theorem versionCount16 : versionCountCheck 16 = true := by decide

set_option maxHeartbeats 2000000000 in
theorem versionCount17 : versionCountCheck 17 = true := by decide

set_option maxHeartbeats 2000000000 in
theorem versionCount18 : versionCountCheck 18 = true := by decide

set_option maxHeartbeats 2000000000 in
theorem versionCount19 : versionCountCheck 19 = true := by decide

set_option maxHeartbeats 2000000000 in
theorem versionCount20 : versionCountCheck 20 = true := by decide

set_option maxHeartbeats 2000000000 in
theorem versionCount21 : versionCountCheck 21 = true := by decide

set_option maxHeartbeats 2000000000 in
theorem versionCount22 : versionCountCheck 22 = true := by decide

set_option maxHeartbeats 2000000000 in
theorem versionCount23 : versionCountCheck 23 = true := by decide

set_option maxHeartbeats 2000000000 in
theorem versionCount24 : versionCountCheck 24 = true := by decide

set_option maxHeartbeats 2000000000 in
theorem versionCount25 : versionCountCheck 25 = true := by decide

set_option maxHeartbeats 2000000000 in
theorem versionCount26 : versionCountCheck 26 = true := by decide

set_option maxHeartbeats 2000000000 in
theorem versionCount27 : versionCountCheck 27 = true := by decide

set_option maxHeartbeats 2000000000 in
theorem versionCount28 : versionCountCheck 28 = true := by decide

set_option maxHeartbeats 2000000000 in
theorem versionCount29 : versionCountCheck 29 = true := by decide

set_option maxHeartbeats 2000000000 in
theorem versionCount30 : versionCountCheck 30 = true := by decide

set_option maxHeartbeats 2000000000 in
theorem versionCount31 : versionCountCheck 31 = true := by decide

set_option maxHeartbeats 2000000000 in
theorem versionCount32 : versionCountCheck 32 = true := by decide

set_option maxHeartbeats 2000000000 in
theorem versionCount33 : versionCountCheck 33 = true := by decide

set_option maxHeartbeats 2000000000 in
theorem versionCount34 : versionCountCheck 34 = true := by decide

set_option maxHeartbeats 2000000000 in
theorem versionCount35 : versionCountCheck 35 = true := by decide

set_option maxHeartbeats 2000000000 in
theorem versionCount36 : versionCountCheck 36 = true := by decide

set_option maxHeartbeats 2000000000 in
theorem versionCount37 : versionCountCheck 37 = true := by decide

set_option maxHeartbeats 2000000000 in
theorem versionCount38 : versionCountCheck 38 = true := by decide

set_option maxHeartbeats 2000000000 in
theorem versionCount39 : versionCountCheck 39 = true := by decide

set_option maxHeartbeats 2000000000 in
theorem versionCount40 : versionCountCheck 40 = true := by decide

/-! Kernel-checked, 32 rows per declaration: the GF(256) product of any two
bytes (in either order) is a byte, and multiplication is commutative. -/

set_option maxHeartbeats 2000000000 in
theorem mulRows0 : mulRowsFrom 0 32 = true := by decide

set_option maxHeartbeats 2000000000 in
theorem mulRows1 : mulRowsFrom 32 32 = true := by decide

set_option maxHeartbeats 2000000000 in
theorem mulRows2 : mulRowsFrom 64 32 = true := by decide

set_option maxHeartbeats 2000000000 in
theorem mulRows3 : mulRowsFrom 96 32 = true := by decide

set_option maxHeartbeats 2000000000 in
theorem mulRows4 : mulRowsFrom 128 32 = true := by decide

set_option maxHeartbeats 2000000000 in
theorem mulRows5 : mulRowsFrom 160 32 = true := by decide

set_option maxHeartbeats 2000000000 in
theorem mulRows6 : mulRowsFrom 192 32 = true := by decide

set_option maxHeartbeats 2000000000 in
theorem mulRows7 : mulRowsFrom 224 32 = true := by decide

/-! ### Basic module facts -/

theorem Module.isUnfilled_iff {m : Module} : m.isUnfilled = true ↔ m = .unfilled := by
  cases m <;> simp [Module.isUnfilled]

theorem Module.isFilled_iff {m : Module} :
    m.isFilled = true ↔ ∃ k c n, m = .filledM k c n := by
  cases m <;> simp [Module.isFilled]

theorem Module.isFilled_eq_not_isUnfilled (m : Module) :
    m.isFilled = !m.isUnfilled := by
  cases m <;> rfl

/-! ### Reading and writing single cells -/

theorem QrCode.size_setModule (qr : QrCode) (x y : Nat) (m : Module) :
    (qr.setModule x y m).size = qr.size := rfl

theorem QrCode.version_setModule (qr : QrCode) (x y : Nat) (m : Module) :
    (qr.setModule x y m).version = qr.version := rfl

theorem QrCode.modules_length_setModule (qr : QrCode) (x y : Nat) (m : Module) :
    (qr.setModule x y m).modules.length = qr.modules.length := by
  simp [QrCode.setModule]

/-- Master description of a point write: a cell changes only when it is the
addressed cell and the address is inside the underlying lists. -/
theorem QrCode.module_setModule (qr : QrCode) (x y : Nat) (m : Module) (a b : Nat) :
    (qr.setModule x y m).module a b =
      if x = a ∧ y = b ∧ x < qr.modules.length ∧ y < (qr.modules.getD x []).length
      then m else qr.module a b := by
  unfold QrCode.setModule QrCode.module
  by_cases hxa : x = a
  · subst hxa
    by_cases hx : x < qr.modules.length
    · have h1 : (qr.modules.set x ((qr.modules.getD x []).set y m)).getD x [] =
          (qr.modules.getD x []).set y m := by
        rw [List.getD_eq_getElem?_getD, List.getElem?_set, if_pos rfl, if_pos hx,
          Option.getD_some]
      rw [h1]
      by_cases hyb : y = b
      · subst hyb
        by_cases hy : y < (qr.modules.getD x []).length
        · rw [List.getD_eq_getElem?_getD ((qr.modules.getD x []).set y m),
            List.getElem?_set, if_pos rfl, if_pos hy, Option.getD_some,
            if_pos ⟨rfl, rfl, hx, hy⟩]
        · rw [List.set_eq_of_length_le (by omega), if_neg (by tauto)]
      · rw [List.getD_eq_getElem?_getD ((qr.modules.getD x []).set y m),
          List.getElem?_set_ne hyb, if_neg (by tauto),
          List.getD_eq_getElem?_getD (qr.modules.getD x [])]
    · rw [List.set_eq_of_length_le (by omega), if_neg (by tauto)]
  · have h1 : (qr.modules.set x ((qr.modules.getD x []).set y m)).getD a [] =
        qr.modules.getD a [] := by
      rw [List.getD_eq_getElem?_getD, List.getElem?_set_ne hxa,
        ← List.getD_eq_getElem?_getD]
    rw [h1, if_neg (by tauto)]

theorem QrCode.module_setModule_ne (qr : QrCode) {x y a b : Nat} (m : Module)
    (h : ¬(x = a ∧ y = b)) :
    (qr.setModule x y m).module a b = qr.module a b := by
  rw [QrCode.module_setModule, if_neg (by tauto)]

theorem QrCode.module_setModule_self (qr : QrCode) {x y : Nat} (m : Module)
    (hx : x < qr.modules.length) (hy : y < (qr.modules.getD x []).length) :
    (qr.setModule x y m).module x y = m := by
  rw [QrCode.module_setModule, if_pos ⟨rfl, rfl, hx, hy⟩]

theorem QrCode.module_setModule_cases (qr : QrCode) (x y : Nat) (m : Module) (a b : Nat) :
    (qr.setModule x y m).module a b = m ∨
      (qr.setModule x y m).module a b = qr.module a b := by
  rw [QrCode.module_setModule]
  split
  · exact Or.inl rfl
  · exact Or.inr rfl

/-- A cell that reads as something other than `unfilled` lies inside the
underlying lists. -/
theorem QrCode.bounds_of_module_ne_unfilled {qr : QrCode} {x y : Nat}
    (h : qr.module x y ≠ .unfilled) :
    x < qr.modules.length ∧ y < (qr.modules.getD x []).length := by
  by_contra hc
  rw [not_and_or] at hc
  apply h
  unfold QrCode.module
  rcases hc with hx | hy
  · have h1 : qr.modules.getD x [] = [] := by
      rw [List.getD_eq_getElem?_getD, List.getElem?_eq_none (by omega)]
      rfl
    rw [h1]
    rfl
  · have h2 : (qr.modules.getD x [])[y]? = none := List.getElem?_eq_none (by omega)
    rw [List.getD_eq_getElem?_getD, h2]
    rfl

theorem QrCode.col_length_setModule (qr : QrCode) (x y : Nat) (m : Module) (i : Nat) :
    ((qr.setModule x y m).modules.getD i []).length = (qr.modules.getD i []).length := by
  unfold QrCode.setModule
  by_cases hxi : x = i
  · subst hxi
    by_cases hx : x < qr.modules.length
    · rw [List.getD_eq_getElem?_getD, List.getElem?_set, if_pos rfl, if_pos hx,
        Option.getD_some, List.length_set]
    · rw [List.set_eq_of_length_le (by omega)]
  · rw [List.getD_eq_getElem?_getD, List.getElem?_set_ne hxi,
      ← List.getD_eq_getElem?_getD]

/-! ### Shape -/

theorem QrCode.wellShaped_new (v : Nat) (ecl : ErrorCorrectionLevel) :
    (QrCode.new v ecl).WellShaped := by
  constructor
  · simp [QrCode.new]
  · intro col hcol
    simp only [QrCode.new, List.mem_replicate] at hcol
    simp [QrCode.new, hcol.2]

theorem QrCode.module_new (v : Nat) (ecl : ErrorCorrectionLevel) (x y : Nat) :
    (QrCode.new v ecl).module x y = .unfilled := by
  unfold QrCode.module QrCode.new
  simp only [List.getD_eq_getElem?_getD]
  rcases h : (List.replicate (v * 4 + 17) (List.replicate (v * 4 + 17) Module.unfilled))[x]? with _ | col
  · simp
  · have hcol : col = List.replicate (v * 4 + 17) Module.unfilled :=
      List.eq_of_mem_replicate (List.getElem?_mem h)
    rcases h2 : (List.replicate (v * 4 + 17) Module.unfilled)[y]? with _ | mm
    · simp [hcol, h2]
    · have hmm : mm = Module.unfilled :=
        List.eq_of_mem_replicate (List.getElem?_mem h2)
      simp [hcol, h2, hmm]

theorem QrCode.wellShaped_setModule {qr : QrCode} (h : qr.WellShaped)
    (x y : Nat) (m : Module) :
    (qr.setModule x y m).WellShaped := by
  obtain ⟨h1, h2⟩ := h
  constructor
  · simpa [QrCode.setModule] using h1
  · intro col hcol
    simp only [QrCode.setModule] at hcol
    by_cases hx : x < qr.modules.length
    · rcases List.mem_or_eq_of_mem_set hcol with hmem | heq
      · exact h2 col hmem
      · subst heq
        rw [List.length_set]
        apply h2
        rw [List.getD_eq_getElem?_getD, List.getElem?_eq_getElem hx]
        exact List.getElem_mem hx
    · rw [List.set_eq_of_length_le (by omega)] at hcol
      exact h2 col hcol

theorem QrCode.col_length_of_wellShaped {qr : QrCode} (h : qr.WellShaped)
    {x : Nat} (hx : x < qr.size) :
    (qr.modules.getD x []).length = qr.size := by
  obtain ⟨h1, h2⟩ := h
  apply h2
  rw [List.getD_eq_getElem?_getD, List.getElem?_eq_getElem (by omega)]
  exact List.getElem_mem (by omega)

/-! ### Writing sequences of cells -/

theorem QrCode.applyWrites_nil (qr : QrCode) : qr.applyWrites [] = qr := rfl

theorem QrCode.applyWrites_cons (qr : QrCode) (w : Write) (ws : List Write) :
    qr.applyWrites (w :: ws) = (qr.setModule w.1 w.2.1 w.2.2).applyWrites ws := rfl

theorem QrCode.applyWrites_append (qr : QrCode) (l₁ l₂ : List Write) :
    qr.applyWrites (l₁ ++ l₂) = (qr.applyWrites l₁).applyWrites l₂ :=
  List.foldl_append ..

theorem QrCode.size_applyWrites (qr : QrCode) (ws : List Write) :
    (qr.applyWrites ws).size = qr.size := by
  induction ws generalizing qr with
  | nil => rfl
  | cons w ws ih => rw [QrCode.applyWrites_cons, ih, QrCode.size_setModule]

theorem QrCode.version_applyWrites (qr : QrCode) (ws : List Write) :
    (qr.applyWrites ws).version = qr.version := by
  induction ws generalizing qr with
  | nil => rfl
  | cons w ws ih => rw [QrCode.applyWrites_cons, ih, QrCode.version_setModule]

theorem QrCode.ecLevel_applyWrites (qr : QrCode) (ws : List Write) :
    (qr.applyWrites ws).errorCorrectionLevel = qr.errorCorrectionLevel := by
  induction ws generalizing qr with
  | nil => rfl
  | cons w ws ih => rw [QrCode.applyWrites_cons, ih]; rfl

theorem QrCode.wellShaped_applyWrites {qr : QrCode} (h : qr.WellShaped)
    (ws : List Write) : (qr.applyWrites ws).WellShaped := by
  induction ws generalizing qr with
  | nil => exact h
  | cons w ws ih =>
      rw [QrCode.applyWrites_cons]
      exact ih (QrCode.wellShaped_setModule h ..)

/-- Positions that no write addresses keep their module. -/
theorem QrCode.module_applyWrites_notmem (qr : QrCode) {ws : List Write} {x y : Nat}
    (h : ∀ w ∈ ws, posW w ≠ (x, y)) :
    (qr.applyWrites ws).module x y = qr.module x y := by
  induction ws generalizing qr with
  | nil => rfl
  | cons w ws ih =>
      rw [QrCode.applyWrites_cons, ih _ (fun w hw => h w (List.mem_cons_of_mem _ hw))]
      apply QrCode.module_setModule_ne
      intro hc
      exact h w (List.mem_cons_self ..) (by simp [posW, hc.1, hc.2])

/-- When every written value is a filled module, a cell that ends up unfilled
was already unfilled. -/
theorem QrCode.module_applyWrites_unfilled (qr : QrCode) {ws : List Write} {x y : Nat}
    (hf : ∀ w ∈ ws, (w.2.2).isFilled = true)
    (h : (qr.applyWrites ws).module x y = .unfilled) :
    qr.module x y = .unfilled := by
  induction ws generalizing qr with
  | nil => exact h
  | cons w ws ih =>
      rw [QrCode.applyWrites_cons] at h
      have h2 := ih _ (fun w hw => hf w (List.mem_cons_of_mem _ hw)) h
      rcases QrCode.module_setModule_cases qr w.1 w.2.1 w.2.2 x y with hc | hc
      · rw [h2] at hc
        have := hf w (List.mem_cons_self ..)
        rw [← hc] at this
        simp [Module.isFilled] at this
      · rw [h2] at hc
        exact hc.symm

/-- A cell addressed by some write of an all-filled write list ends up filled
(provided the grid is well shaped and the cell is in range). -/
theorem QrCode.module_applyWrites_hit {qr : QrCode} {ws : List Write} {x y : Nat}
    (hsh : qr.WellShaped)
    (hf : ∀ w ∈ ws, (w.2.2).isFilled = true)
    (hmem : (x, y) ∈ ws.map posW)
    (hx : x < qr.size) (hy : y < qr.size) :
    (qr.applyWrites ws).module x y ≠ .unfilled := by
  induction ws generalizing qr with
  | nil => simp at hmem
  | cons w ws ih =>
      rw [QrCode.applyWrites_cons]
      rw [List.map_cons, List.mem_cons] at hmem
      rcases hmem with hw | hmem
      · intro hc
        have h2 := QrCode.module_applyWrites_unfilled _
          (fun w hw => hf w (List.mem_cons_of_mem _ hw)) hc
        have hpos : w.1 = x ∧ w.2.1 = y := by
          simpa [posW, Prod.ext_iff] using hw.symm
        have hxl : w.1 < qr.modules.length := by
          rw [hpos.1, hsh.1]; exact hx
        have hyl : w.2.1 < (qr.modules.getD w.1 []).length := by
          rw [hpos.1, hpos.2, QrCode.col_length_of_wellShaped hsh hx]; exact hy
        rw [← hpos.1, ← hpos.2] at h2
        rw [QrCode.module_setModule_self _ _ hxl hyl] at h2
        have := hf w (List.mem_cons_self ..)
        rw [h2] at this
        simp [Module.isFilled] at this
      · exact ih (QrCode.wellShaped_setModule hsh ..)
          (fun w hw => hf w (List.mem_cons_of_mem _ hw)) hmem
          (by rw [QrCode.size_setModule]; exact hx)
          (by rw [QrCode.size_setModule]; exact hy)

/-! ### Counting distinct positions via the slot mask -/

theorem slotFold_nil (n : Nat) (acc : Nat) : slotFold n [] acc = acc := rfl

theorem slotFold_cons (n : Nat) (p : Nat × Nat) (ps : List (Nat × Nat)) (acc : Nat) :
    slotFold n (p :: ps) acc =
      cond (Nat.blt p.1 n && Nat.blt p.2 n)
        (cond (Nat.beq (acc &&& (1 <<< ((p.1 * n + p.2) * 16))) 0)
          (slotFold n ps (acc + (1 <<< ((p.1 * n + p.2) * 16))))
          (slotFold n ps acc))
        (slotFold n ps acc) := rfl

/-- Adding a power of two at a clear bit sets exactly that bit. -/
theorem testBit_add_two_pow {acc i : Nat} (h : acc.testBit i = false) (k : Nat) :
    (acc + 2 ^ i).testBit k = (acc.testBit k || decide (k = i)) := by
  have hsplit := Nat.div_add_mod acc (2 ^ (i + 1))
  set a := acc / 2 ^ (i + 1) with ha
  set b := acc % 2 ^ (i + 1) with hb
  have hblt : b < 2 ^ (i + 1) := Nat.mod_lt _ (Nat.pos_pow_of_pos _ (by omega))
  have hbbit : b.testBit i = false := by
    rw [hb, Nat.testBit_mod_two_pow]
    simp [h]
  have hbi : b < 2 ^ i := by
    rcases Nat.lt_or_ge b (2 ^ i) with h1 | h1
    · exact h1
    · exfalso
      have hdiv : b / 2 ^ i = 1 := by
        have h2 : b / 2 ^ i < 2 := by
          apply Nat.div_lt_of_lt_mul
          rw [Nat.pow_succ] at hblt
          omega
        have h3 : 1 ≤ b / 2 ^ i := (Nat.one_le_div_iff (Nat.pos_pow_of_pos _ (by omega))).2 h1
        omega
      rw [Nat.testBit_to_div_mod, hdiv] at hbbit
      simp at hbbit
  have hsum : acc = 2 ^ (i + 1) * a + b := by omega
  have hsum2 : acc + 2 ^ i = 2 ^ (i + 1) * a + (b + 2 ^ i) := by omega
  have hlt2 : b + 2 ^ i < 2 ^ (i + 1) := by
    rw [Nat.pow_succ]; omega
  rw [hsum2, Nat.testBit_mul_pow_two_add _ hlt2]
  rw [hsum, Nat.testBit_mul_pow_two_add _ hblt]
  rcases Nat.lt_trichotomy k i with hk | hk | hk
  · rw [if_pos (by omega), if_pos (by omega)]
    rw [Nat.add_comm b (2 ^ i), Nat.testBit_two_pow_add_gt hk]
    simp [show k ≠ i by omega]
  · subst hk
    rw [if_pos (by omega), if_pos (by omega)]
    rw [Nat.add_comm b (2 ^ k), Nat.testBit_two_pow_add_eq, hbbit]
    simp
  · rw [if_neg (by omega), if_neg (by omega)]
    simp [show k ≠ i by omega]

/-- Bit description of a sum of distinct 16-bit-slot powers. -/
theorem testBit_slotSum (E : Finset Nat) : ∀ k,
    (∑ e ∈ E, 2 ^ (e * 16)).testBit k = decide (∃ e ∈ E, k = e * 16) := by
  classical
  induction E using Finset.induction with
  | empty => intro k; simp
  | @insert a E ha ih =>
      intro k
      have hfree : (∑ e ∈ E, 2 ^ (e * 16)).testBit (a * 16) = false := by
        rw [ih (a * 16)]
        simp only [decide_eq_false_iff_not]
        rintro ⟨e, he, heq⟩
        have : e = a := by omega
        exact ha (this ▸ he)
      rw [Finset.sum_insert ha, Nat.add_comm, testBit_add_two_pow hfree k, ih k]
      have hiff : (∃ e ∈ insert a E, k = e * 16) ↔
          ((∃ e ∈ E, k = e * 16) ∨ k = a * 16) := by
        simp only [Finset.mem_insert]
        constructor
        · rintro ⟨e, (rfl | he), hk⟩
          · exact Or.inr hk
          · exact Or.inl ⟨e, he, hk⟩
        · rintro (⟨e, he, hk⟩ | hk)
          · exact ⟨e, Or.inr he, hk⟩
          · exact ⟨a, Or.inl rfl, hk⟩
      by_cases h1 : (∃ e ∈ E, k = e * 16) <;> by_cases h2 : k = a * 16 <;>
        simp [h1, h2, hiff]

/-- The base-2¹⁶ digit sum of a sum of distinct slot powers counts the
slots. -/
theorem slotSum_mod (E : Finset Nat) (h : E.card < 65535) :
    (∑ e ∈ E, 2 ^ (e * 16)) % 65535 = E.card := by
  classical
  induction E using Finset.induction with
  | empty => simp
  | @insert a E ha ih =>
      rw [Finset.card_insert_of_not_mem ha] at h ⊢
      have hcard : E.card < 65535 := by omega
      have h1 : (2 : Nat) ^ (a * 16) % 65535 = 1 := by
        rw [Nat.mul_comm a 16, Nat.pow_mul, Nat.pow_mod]
        norm_num
      rw [Finset.sum_insert ha, Nat.add_mod, h1, ih hcard, Nat.mod_eq_of_lt (by omega)]
      omega

/-- Running the slot fold from the sum over `E` accumulates the encodings of
the distinct in-bounds positions of `ps`. -/
theorem slotFold_spec (n : Nat) (ps : List (Nat × Nat)) :
    ∀ E : Finset Nat, (∀ e ∈ E, e < n * n) →
    slotFold n ps (∑ e ∈ E, 2 ^ (e * 16)) =
      ∑ e ∈ E ∪ (((ps.filter (fun p => decide (p.1 < n ∧ p.2 < n))).toFinset).image
        (fun p => p.1 * n + p.2)), 2 ^ (e * 16) := by
  classical
  induction ps with
  | nil => intro E hE; simp [slotFold_nil]
  | cons p ps ih =>
      intro E hE
      rw [slotFold_cons]
      by_cases hin : p.1 < n ∧ p.2 < n
      · have hb : (Nat.blt p.1 n && Nat.blt p.2 n) = true := by
          simp only [Bool.and_eq_true, Nat.blt_eq]
          exact hin
        rw [hb, cond_true]
        have henc : p.1 * n + p.2 < n * n := by
          calc p.1 * n + p.2 < p.1 * n + n := by omega
          _ = (p.1 + 1) * n := by ring
          _ ≤ n * n := Nat.mul_le_mul_right _ (by omega)
        have htb : (∑ e ∈ E, 2 ^ (e * 16)).testBit ((p.1 * n + p.2) * 16) =
            decide ((p.1 * n + p.2) ∈ E) := by
          rw [testBit_slotSum]
          apply decide_eq_decide.mpr
          constructor
          · rintro ⟨e, he, hk⟩
            have : e = p.1 * n + p.2 := by omega
            exact this ▸ he
          · intro hm
            exact ⟨_, hm, rfl⟩
        have hfiltp : (fun q => decide (q.1 < n ∧ q.2 < n)) p = true := by
          simpa using hin
        by_cases hmem : (p.1 * n + p.2) ∈ E
        · have hguard :
              Nat.beq ((∑ e ∈ E, 2 ^ (e * 16)) &&& (1 <<< ((p.1 * n + p.2) * 16))) 0 = false := by
            rw [Bool.eq_false_iff]
            intro hc
            rw [Nat.beq_eq] at hc
            rw [Nat.one_shiftLeft, Nat.and_two_pow, htb] at hc
            rw [decide_eq_true hmem] at hc
            simp at hc
          rw [hguard, cond_false, ih E hE]
          congr 1
          rw [List.filter_cons, if_pos hfiltp, List.toFinset_cons, Finset.image_insert]
          ext q
          simp only [Finset.mem_union, Finset.mem_insert]
          constructor
          · rintro (hq | hq)
            · exact Or.inl hq
            · exact Or.inr (Or.inr hq)
          · rintro (hq | (hq | hq))
            · exact Or.inl hq
            · exact Or.inl (hq ▸ hmem)
            · exact Or.inr hq
        · have hguard :
              Nat.beq ((∑ e ∈ E, 2 ^ (e * 16)) &&& (1 <<< ((p.1 * n + p.2) * 16))) 0 = true := by
            rw [Nat.beq_eq, Nat.one_shiftLeft, Nat.and_two_pow, htb]
            simp [hmem]
          rw [hguard, cond_true]
          have hsum : (∑ e ∈ E, 2 ^ (e * 16)) + 1 <<< ((p.1 * n + p.2) * 16) =
              ∑ e ∈ insert (p.1 * n + p.2) E, 2 ^ (e * 16) := by
            rw [Finset.sum_insert hmem, Nat.add_comm, Nat.one_shiftLeft]
          rw [hsum, ih (insert (p.1 * n + p.2) E) ?hbd]
          case hbd =>
            intro e he
            rcases Finset.mem_insert.1 he with rfl | he
            · exact henc
            · exact hE e he
          congr 1
          rw [List.filter_cons, if_pos hfiltp, List.toFinset_cons, Finset.image_insert]
          ext q
          simp only [Finset.mem_union, Finset.mem_insert]
          tauto
      · have hb : (Nat.blt p.1 n && Nat.blt p.2 n) = false := by
          rw [Bool.eq_false_iff]
          intro hc
          simp only [Bool.and_eq_true, Nat.blt_eq] at hc
          exact hin hc
        rw [hb, cond_false, ih E hE]
        congr 2
        rw [List.filter_cons, if_neg (by simpa using hin)]

/-- `distinctCount` counts the grid cells that occur in the list. -/
theorem distinctCount_eq_card (n : Nat) (hn : n * n < 65535) (ps : List (Nat × Nat)) :
    distinctCount n ps =
      ((Finset.range n ×ˢ Finset.range n).filter (fun q => q ∈ ps)).card := by
  classical
  unfold distinctCount
  have h0 : (0 : Nat) = ∑ e ∈ (∅ : Finset Nat), 2 ^ (e * 16) := by simp
  rw [h0, slotFold_spec n ps ∅ (by simp), Finset.empty_union]
  have hSsub : ∀ e ∈ (((ps.filter (fun p => decide (p.1 < n ∧ p.2 < n))).toFinset).image
      (fun p => p.1 * n + p.2)), e < n * n := by
    intro e he
    simp only [Finset.mem_image, List.mem_toFinset, List.mem_filter,
      decide_eq_true_eq] at he
    obtain ⟨q, ⟨hq, hqb⟩, rfl⟩ := he
    calc q.1 * n + q.2 < q.1 * n + n := by omega
    _ = (q.1 + 1) * n := by ring
    _ ≤ n * n := Nat.mul_le_mul_right _ (by omega)
  have hcard : (((ps.filter (fun p => decide (p.1 < n ∧ p.2 < n))).toFinset).image
      (fun p => p.1 * n + p.2)).card < 65535 := by
    have hsub : (((ps.filter (fun p => decide (p.1 < n ∧ p.2 < n))).toFinset).image
        (fun p => p.1 * n + p.2)) ⊆ Finset.range (n * n) :=
      fun e he => Finset.mem_range.2 (hSsub e he)
    calc _ ≤ (Finset.range (n * n)).card := Finset.card_le_card hsub
    _ = n * n := by simp
    _ < 65535 := hn
  rw [slotSum_mod _ hcard]
  have himg : (((ps.filter (fun p => decide (p.1 < n ∧ p.2 < n))).toFinset).image
      (fun p => p.1 * n + p.2)).card =
      ((ps.filter (fun p => decide (p.1 < n ∧ p.2 < n))).toFinset).card := by
    apply Finset.card_image_of_injOn
    intro q hq q' hq' heq
    simp only [Finset.mem_coe, List.mem_toFinset, List.mem_filter,
      decide_eq_true_eq] at hq hq'
    have hn0 : 0 < n := by omega
    have hmod : ∀ r : Nat × Nat, r.2 < n → (r.1 * n + r.2) % n = r.2 := by
      intro r hr
      rw [Nat.add_comm, Nat.add_mul_mod_self_right, Nat.mod_eq_of_lt hr]
    have heq' : q.1 * n + q.2 = q'.1 * n + q'.2 := heq
    have h2 : q.2 = q'.2 := by
      rw [← hmod q hq.2.2, ← hmod q' hq'.2.2, heq']
    have h1 : q.1 = q'.1 := by
      have hm : q.1 * n = q'.1 * n := by omega
      exact Nat.eq_of_mul_eq_mul_right hn0 hm
    exact Prod.ext h1 h2
  rw [himg]
  congr 1
  ext q
  simp only [List.mem_toFinset, List.mem_filter, decide_eq_true_eq, Finset.mem_filter,
    Finset.mem_product, Finset.mem_range]
  tauto

/-- Applying an all-filled write list to a fresh grid: the unfilled cells and
the distinctly written cells partition the `size × size` grid. -/
theorem unfilledTotal_add_distinct (v : Nat) (ecl : ErrorCorrectionLevel)
    (ws : List Write) (hv : v ≤ 40)
    (hf : ∀ w ∈ ws, (w.2.2).isFilled = true) :
    unfilledTotal ((QrCode.new v ecl).applyWrites ws) +
      distinctCount (v * 4 + 17) (ws.map posW) = (v * 4 + 17) * (v * 4 + 17) := by
  classical
  have hsize : ((QrCode.new v ecl).applyWrites ws).size = v * 4 + 17 := by
    rw [QrCode.size_applyWrites]; rfl
  have hn : (v * 4 + 17) * (v * 4 + 17) < 65535 := by
    have h177 : v * 4 + 17 ≤ 177 := by omega
    calc (v * 4 + 17) * (v * 4 + 17) ≤ 177 * 177 := Nat.mul_le_mul h177 h177
    _ < 65535 := by omega
  rw [distinctCount_eq_card _ hn]
  have hcell : ∀ x y, x < v * 4 + 17 → y < v * 4 + 17 →
      ((((QrCode.new v ecl).applyWrites ws).module x y).isUnfilled = true ↔
        (x, y) ∉ ws.map posW) := by
    intro x y hx hy
    rw [Module.isUnfilled_iff]
    constructor
    · intro hu hmem
      exact QrCode.module_applyWrites_hit (QrCode.wellShaped_new v ecl) hf hmem hx hy hu
    · intro hnm
      rw [QrCode.module_applyWrites_notmem _
        (fun w hw hc => hnm (hc ▸ List.mem_map_of_mem posW hw))]
      exact QrCode.module_new v ecl x y
  rw [Finset.card_filter, Finset.sum_product]
  unfold unfilledTotal unfilledInColumn
  rw [hsize, ← Finset.sum_add_distrib]
  have hrow : ∀ x ∈ Finset.range (v * 4 + 17),
      ((∑ y ∈ Finset.range (v * 4 + 17),
          if (((QrCode.new v ecl).applyWrites ws).module x y).isUnfilled then 1 else 0) +
        ∑ y ∈ Finset.range (v * 4 + 17),
          (if (x, y) ∈ ws.map posW then 1 else 0)) = v * 4 + 17 := by
    intro x hx
    rw [← Finset.sum_add_distrib]
    have hpt : ∀ y ∈ Finset.range (v * 4 + 17),
        ((if (((QrCode.new v ecl).applyWrites ws).module x y).isUnfilled then 1 else 0) +
          (if (x, y) ∈ ws.map posW then 1 else 0)) = 1 := by
      intro y hy
      have hiff := hcell x y (Finset.mem_range.1 hx) (Finset.mem_range.1 hy)
      by_cases hm : (x, y) ∈ ws.map posW
      · have hu : (((QrCode.new v ecl).applyWrites ws).module x y).isUnfilled = false := by
          rw [Bool.eq_false_iff]
          intro hc
          exact (hiff.1 hc) hm
        simp [hu, hm]
      · have hu := hiff.2 hm
        simp [hu, hm]
    rw [Finset.sum_congr rfl hpt, Finset.sum_const, Finset.card_range, smul_eq_mul,
      Nat.mul_one]
  rw [Finset.sum_congr rfl hrow, Finset.sum_const, Finset.card_range, smul_eq_mul]

/-! ### Every structural write carries a filled module -/

theorem timingWrites_filled (n : Nat) :
    ∀ w ∈ timingWrites n, (w.2.2).isFilled = true := by
  intro w hw
  simp only [timingWrites, List.mem_flatMap, List.mem_range, List.mem_cons,
    List.not_mem_nil, or_false] at hw
  obtain ⟨i, _, hw⟩ := hw
  rcases hw with rfl | rfl <;> rfl

theorem finderWrites_filled (n : Nat) :
    ∀ w ∈ finderWrites n, (w.2.2).isFilled = true := by
  intro w hw
  simp only [finderWrites, List.mem_flatMap, List.mem_filterMap, List.mem_range] at hw
  obtain ⟨c, _, dyi, _, dxi, _, hsome⟩ := hw
  split_ifs at hsome with h1 h2
  · exact (Option.some.inj hsome) ▸ rfl
  · exact (Option.some.inj hsome) ▸ rfl

theorem alignmentWrites_filled (v n : Nat) :
    ∀ w ∈ alignmentWrites v n, (w.2.2).isFilled = true := by
  intro w hw
  unfold alignmentWrites at hw
  by_cases hv : v = 1
  · rw [if_pos hv] at hw
    simp at hw
  · rw [if_neg hv] at hw
    simp only [List.mem_flatMap] at hw
    obtain ⟨ic, _, jc, _, hmem⟩ := hw
    split at hmem
    · simp at hmem
    · simp only [List.mem_flatMap, List.mem_map, List.mem_range] at hmem
      obtain ⟨dyi, _, dxi, _, heq⟩ := hmem
      rw [← heq]
      rfl

theorem formatWrites_filled (size bits : Nat) :
    ∀ w ∈ formatWrites size bits, (w.2.2).isFilled = true := by
  intro w hw
  simp only [formatWrites, List.mem_append, List.mem_map, List.mem_cons,
    List.not_mem_nil, or_false] at hw
  rcases hw with ((((h | h) | h) | h) | h) | h
  · obtain ⟨i, _, rfl⟩ := h; rfl
  · rcases h with rfl | rfl | rfl <;> rfl
  · obtain ⟨i, _, rfl⟩ := h; rfl
  · obtain ⟨i, _, rfl⟩ := h; rfl
  · obtain ⟨i, _, rfl⟩ := h; rfl
  · rcases h with rfl; rfl

theorem versionWrites_filled (size bits : Nat) :
    ∀ w ∈ versionWrites size bits, (w.2.2).isFilled = true := by
  intro w hw
  simp only [versionWrites, List.mem_flatMap, List.mem_range, List.mem_cons,
    List.not_mem_nil, or_false] at hw
  obtain ⟨i, _, hw⟩ := hw
  rcases hw with rfl | rfl <;> rfl

theorem structuralWrites_filled (v n fbits vbits : Nat) :
    ∀ w ∈ structuralWrites v n fbits vbits, (w.2.2).isFilled = true := by
  intro w hw
  simp only [structuralWrites, List.mem_append] at hw
  rcases hw with (((h | h) | h) | h) | h
  · exact timingWrites_filled n w h
  · exact finderWrites_filled n w h
  · exact alignmentWrites_filled v n w h
  · exact formatWrites_filled n fbits w h
  · rcases Nat.lt_or_ge v 7 with h7 | h7
    · rw [if_pos h7] at h
      simp at h
    · rw [if_neg (by omega)] at h
      exact versionWrites_filled n vbits w h

/-! ### Write positions do not depend on the encoded bit values -/

theorem formatWrites_posW (size bits : Nat) :
    (formatWrites size bits).map posW = (formatWrites size 0).map posW := by
  simp [formatWrites, posW, Function.comp_def]

theorem versionWrites_posW (size bits : Nat) :
    (versionWrites size bits).map posW = (versionWrites size 0).map posW := by
  simp [versionWrites, posW, Function.comp_def, List.map_flatMap]

theorem structuralWrites_posW (v n fbits vbits : Nat) :
    (structuralWrites v n fbits vbits).map posW =
      (structuralWrites v n 0 0).map posW := by
  unfold structuralWrites
  simp only [List.map_append, apply_ite (List.map posW)]
  rw [formatWrites_posW, versionWrites_posW]

/-! ### The construction pipeline as one write list -/

theorem buildFunctionPatterns_eq (v : Nat) (ecl : ErrorCorrectionLevel)
    (mask : Option Nat)
    (hfb : QrCode.formatBitsValue ecl mask >>> 15 = 0)
    (hvb : 7 ≤ v → versionBitsValue v >>> 18 = 0) :
    buildFunctionPatterns v ecl mask =
      some ((QrCode.new v ecl).applyWrites
        (structuralWrites v (v * 4 + 17) (QrCode.formatBitsValue ecl mask)
          (versionBitsValue v))) := by
  have hsz : ∀ ws, ((QrCode.new v ecl).applyWrites ws).size = v * 4 + 17 :=
    fun ws => (QrCode.size_applyWrites _ ws).trans rfl
  have hver : ∀ ws, ((QrCode.new v ecl).applyWrites ws).version = v :=
    fun ws => (QrCode.version_applyWrites _ ws).trans rfl
  have hecl : ∀ ws, ((QrCode.new v ecl).applyWrites ws).errorCorrectionLevel = ecl :=
    fun ws => (QrCode.ecLevel_applyWrites _ ws).trans rfl
  have hT : (QrCode.new v ecl).drawTimingPatterns =
      (QrCode.new v ecl).applyWrites (timingWrites (v * 4 + 17)) := rfl
  have hg3 : (((QrCode.new v ecl).drawTimingPatterns).drawFinderPatterns).drawAlignmentPatterns
      = (QrCode.new v ecl).applyWrites
          (timingWrites (v * 4 + 17) ++ finderWrites (v * 4 + 17) ++
            alignmentWrites v (v * 4 + 17)) := by
    rw [hT]
    unfold QrCode.drawFinderPatterns
    rw [hsz, ← QrCode.applyWrites_append]
    unfold QrCode.drawAlignmentPatterns
    rw [hsz, hver, ← QrCode.applyWrites_append]
  have hfmt : (((QrCode.new v ecl).applyWrites
        (timingWrites (v * 4 + 17) ++ finderWrites (v * 4 + 17) ++
          alignmentWrites v (v * 4 + 17))).drawFormatBits mask)
      = some ((QrCode.new v ecl).applyWrites
          (timingWrites (v * 4 + 17) ++ finderWrites (v * 4 + 17) ++
            alignmentWrites v (v * 4 + 17) ++
            formatWrites (v * 4 + 17) (QrCode.formatBitsValue ecl mask))) := by
    simp only [QrCode.drawFormatBits, hecl, hsz, hfb]
    norm_num
    rw [← QrCode.applyWrites_append]
    simp only [List.append_assoc]
  have hbuild : buildFunctionPatterns v ecl mask =
      (((((QrCode.new v ecl).drawTimingPatterns).drawFinderPatterns).drawAlignmentPatterns).drawFormatBits
        mask).bind QrCode.drawVersionInformation := rfl
  rw [hbuild, hg3, hfmt, Option.some_bind]
  simp only [QrCode.drawVersionInformation, hver, hsz]
  rcases Nat.lt_or_ge v 7 with h7 | h7
  · rw [if_pos h7]
    unfold structuralWrites
    rw [if_pos h7, List.append_nil]
  · have hB : versionBitsValue v = v <<< 12 ||| (List.range 12).foldl
        (fun rem _ => (rem <<< 1) ^^^ ((rem >>> 11) * 0x1F25)) v := rfl
    rw [if_neg (by omega), ← hB, hvb h7]
    norm_num
    rw [← QrCode.applyWrites_append]
    unfold structuralWrites
    rw [if_neg (by omega)]
    simp only [List.append_assoc]

/-! ### Extracting the per-version counting fact from the kernel check -/

theorem versionCountCheck_all (v : Nat) (h1 : 1 ≤ v) (h2 : v ≤ 40) :
    versionCountCheck v = true := by
  interval_cases v
  exacts [versionCount1, versionCount2, versionCount3, versionCount4,
    versionCount5, versionCount6, versionCount7, versionCount8, versionCount9,
    versionCount10, versionCount11, versionCount12, versionCount13,
    versionCount14, versionCount15, versionCount16, versionCount17,
    versionCount18, versionCount19, versionCount20, versionCount21,
    versionCount22, versionCount23, versionCount24, versionCount25,
    versionCount26, versionCount27, versionCount28, versionCount29,
    versionCount30, versionCount31, versionCount32, versionCount33,
    versionCount34, versionCount35, versionCount36, versionCount37,
    versionCount38, versionCount39, versionCount40]

theorem structural_distinct_add_raw (v : Nat) (h1 : 1 ≤ v) (h2 : v ≤ 40) :
    distinctCount (v * 4 + 17) ((structuralWrites v (v * 4 + 17) 0 0).map posW) +
      (QrCode.getNumRawDataModules v).getD 0 = (v * 4 + 17) * (v * 4 + 17) := by
  have hc := versionCountCheck_all v h1 h2
  unfold versionCountCheck at hc
  rw [Nat.beq_eq] at hc
  exact hc

/-- The fresh grid with all function patterns drawn has exactly the raw
data-module capacity of unfilled cells. -/
theorem unfilledTotal_structural (v : Nat) (ecl : ErrorCorrectionLevel)
    (fbits vbits : Nat) (h1 : 1 ≤ v) (h2 : v ≤ 40) :
    unfilledTotal ((QrCode.new v ecl).applyWrites
        (structuralWrites v (v * 4 + 17) fbits vbits)) =
      (QrCode.getNumRawDataModules v).getD 0 := by
  have hA := unfilledTotal_add_distinct v ecl
    (structuralWrites v (v * 4 + 17) fbits vbits) (by omega)
    (structuralWrites_filled v (v * 4 + 17) fbits vbits)
  rw [structuralWrites_posW] at hA
  have hB := structural_distinct_add_raw v h1 h2
  omega

/-! ### The zig-zag scan visits every unfilled cell once -/

theorem sum_map_range (f : Nat → Nat) (n : Nat) :
    ((List.range n).map f).sum = ∑ i ∈ Finset.range n, f i := by
  induction n with
  | zero => simp
  | succ n ih => rw [List.range_succ]; simp [ih, Finset.sum_range_succ]

/-- A 2-column strip collects one entry per unfilled cell of its two
columns. -/
theorem length_scanStrip (qr : QrCode) (right : Nat) :
    (scanStrip qr right).length =
      unfilledInColumn qr right + unfilledInColumn qr (right - 1) := by
  have hstrip : ∀ y, (List.filterMap (fun j =>
      if (qr.module (right - j) y).isUnfilled = true then some ((right - j), y) else none)
        (List.range 2)).length =
      ((if (qr.module right y).isUnfilled = true then 1 else 0) +
        (if (qr.module (right - 1) y).isUnfilled = true then 1 else 0)) := by
    intro y
    have h2 : List.range 2 = [0, 1] := rfl
    rw [h2]
    by_cases hu0 : (qr.module right y).isUnfilled = true <;>
      by_cases hu1 : (qr.module (right - 1) y).isUnfilled = true <;>
        simp [List.filterMap_cons, hu0, hu1]
  by_cases hb : ((((right + 1) &&& 2) == 0 : Bool) = true)
  · simp only [scanStrip, if_pos hb]
    rw [List.length_flatMap]
    simp only [Function.comp_def, hstrip]
    rw [sum_map_range, Finset.sum_add_distrib]
    congr 1
    · exact Finset.sum_range_reflect
        (fun y => if (qr.module right y).isUnfilled = true then 1 else 0) qr.size
    · exact Finset.sum_range_reflect
        (fun y => if (qr.module (right - 1) y).isUnfilled = true then 1 else 0) qr.size
  · simp only [scanStrip, if_neg hb]
    rw [List.length_flatMap]
    simp only [Function.comp_def, hstrip]
    rw [sum_map_range, Finset.sum_add_distrib]
    rfl

theorem zigZagRights_six : zigZagRights 6 = [5, 3, 1] := by
  rw [zigZagRights]; norm_num
  rw [zigZagRights]; norm_num
  rw [zigZagRights]; norm_num
  rw [zigZagRights]; norm_num

theorem zigZagRights_step (e : Nat) (h1 : 1 ≤ e) (h6 : e ≠ 6) :
    zigZagRights e = e :: zigZagRights (e - 2) := by
  rw [zigZagRights, dif_pos h1]
  simp only [if_neg h6]

/-- Summing `f r + f (r-1)` along the strip starts covers every column except
column 6 exactly once (for even starts `e = 6 + 2k`). -/
theorem zigZag_sum (f : Nat → Nat) :
    ∀ k e, e = 6 + 2 * k →
      ((zigZagRights e).map (fun r => f r + f (r - 1))).sum + f 6 =
        ∑ x ∈ Finset.range (e + 1), f x := by
  intro k
  induction k with
  | zero =>
      intro e he
      have h6 : e = 6 := by omega
      subst h6
      rw [zigZagRights_six]
      simp [Finset.sum_range_succ]
      ring
  | succ k ih =>
      intro e he
      have h1 : 1 ≤ e := by omega
      have h6 : e ≠ 6 := by omega
      rw [zigZagRights_step e h1 h6, List.map_cons, List.sum_cons]
      have ihe := ih (e - 2) (by omega)
      have h21 : e - 2 + 1 = e - 1 := by omega
      rw [h21] at ihe
      have hsplit : e + 1 = (e - 1) + 1 + 1 := by omega
      rw [hsplit, Finset.sum_range_succ, Finset.sum_range_succ]
      have he1 : (e - 1) + 1 = e := by omega
      rw [he1]
      omega

/-- Scan length plus the (always zero) unfilled count of column 6 equals the
total number of unfilled cells. -/
theorem length_makeZigZagScan (qr : QrCode) (k : Nat)
    (hsz : qr.size - 1 = 6 + 2 * k) :
    qr.makeZigZagScan.length + unfilledInColumn qr 6 = unfilledTotal qr := by
  unfold QrCode.makeZigZagScan
  rw [List.length_flatMap]
  simp only [Function.comp_def, length_scanStrip]
  have hz := zigZag_sum (unfilledInColumn qr) k (qr.size - 1) hsz
  have hs1 : qr.size - 1 + 1 = qr.size := by omega
  rw [hs1] at hz
  exact hz

/-- Column 6 of a structurally drawn grid has no unfilled cell (the timing
pattern fills it). -/
theorem unfilledInColumn_six (v : Nat) (ecl : ErrorCorrectionLevel) (fbits vbits : Nat) :
    unfilledInColumn ((QrCode.new v ecl).applyWrites
      (structuralWrites v (v * 4 + 17) fbits vbits)) 6 = 0 := by
  unfold unfilledInColumn
  apply Finset.sum_eq_zero
  intro y hy
  rw [Finset.mem_range] at hy
  have hy' : y < v * 4 + 17 := by
    have hsz : ((QrCode.new v ecl).applyWrites
        (structuralWrites v (v * 4 + 17) fbits vbits)).size = v * 4 + 17 :=
      (QrCode.size_applyWrites _ _).trans rfl
    omega
  have hmem : ((6 : Nat), y) ∈ (structuralWrites v (v * 4 + 17) fbits vbits).map posW := by
    have h1 : ((6 : Nat), y, Module.filledM .timingMod (y % 2 == 0) true) ∈
        timingWrites (v * 4 + 17) := by
      simp only [timingWrites, List.mem_flatMap, List.mem_range]
      exact ⟨y, hy', by simp⟩
    have h2 : ((6 : Nat), y, Module.filledM .timingMod (y % 2 == 0) true) ∈
        structuralWrites v (v * 4 + 17) fbits vbits := by
      simp only [structuralWrites, List.mem_append]
      exact Or.inl (Or.inl (Or.inl (Or.inl h1)))
    exact List.mem_map_of_mem posW h2
  have hhit := QrCode.module_applyWrites_hit (QrCode.wellShaped_new v ecl)
    (structuralWrites_filled v (v * 4 + 17) fbits vbits) hmem
    (show (6 : Nat) < (QrCode.new v ecl).size by show (6 : Nat) < v * 4 + 17; omega)
    (show y < (QrCode.new v ecl).size by show y < v * 4 + 17; omega)
  have hu : (((QrCode.new v ecl).applyWrites
      (structuralWrites v (v * 4 + 17) fbits vbits)).module 6 y).isUnfilled = false := by
    rw [Bool.eq_false_iff]
    intro hc
    exact hhit (Module.isUnfilled_iff.1 hc)
  simp [hu]

/-- End-to-end: the zig-zag scan of a structurally drawn grid has exactly the
raw data-module capacity of entries. -/
theorem length_scan_structural (v : Nat) (ecl : ErrorCorrectionLevel)
    (fbits vbits : Nat) (h1 : 1 ≤ v) (h2 : v ≤ 40) :
    ((QrCode.new v ecl).applyWrites
        (structuralWrites v (v * 4 + 17) fbits vbits)).makeZigZagScan.length =
      (QrCode.getNumRawDataModules v).getD 0 := by
  have hsz : ((QrCode.new v ecl).applyWrites
      (structuralWrites v (v * 4 + 17) fbits vbits)).size = v * 4 + 17 :=
    (QrCode.size_applyWrites _ _).trans rfl
  have hlen := length_makeZigZagScan ((QrCode.new v ecl).applyWrites
    (structuralWrites v (v * 4 + 17) fbits vbits)) (2 * v + 5) (by omega)
  rw [unfilledInColumn_six v ecl fbits vbits, Nat.add_zero,
    unfilledTotal_structural v ecl fbits vbits h1 h2] at hlen
  exact hlen

/-- The version-information assertion never fires for versions up to 40. -/
theorem versionBits_ok : ∀ v : Nat, v < 41 → 7 ≤ v → versionBitsValue v >>> 18 = 0 := by
  decide

theorem ecLevel_pipeline (v : Nat) (ecl : ErrorCorrectionLevel) :
    ((((QrCode.new v ecl).drawTimingPatterns).drawFinderPatterns).drawAlignmentPatterns).errorCorrectionLevel
      = ecl := by
  unfold QrCode.drawAlignmentPatterns QrCode.drawFinderPatterns QrCode.drawTimingPatterns
  rw [QrCode.ecLevel_applyWrites, QrCode.ecLevel_applyWrites, QrCode.ecLevel_applyWrites]
  rfl

/-- A successful pipeline run is the structural write list applied to a fresh
grid. -/
theorem buildFunctionPatterns_inv (v : Nat) (ecl : ErrorCorrectionLevel)
    (mask : Option Nat) (g : QrCode) (h2 : v ≤ 40)
    (hbuild : buildFunctionPatterns v ecl mask = some g) :
    g = (QrCode.new v ecl).applyWrites
      (structuralWrites v (v * 4 + 17) (QrCode.formatBitsValue ecl mask)
        (versionBitsValue v)) := by
  by_cases hfb : QrCode.formatBitsValue ecl mask >>> 15 = 0
  · have heq := buildFunctionPatterns_eq v ecl mask hfb
      (fun h7 => versionBits_ok v (by omega) h7)
    rw [heq] at hbuild
    exact (Option.some.inj hbuild).symm
  · exfalso
    have hbuild' : buildFunctionPatterns v ecl mask =
        (((((QrCode.new v ecl).drawTimingPatterns).drawFinderPatterns).drawAlignmentPatterns).drawFormatBits
          mask).bind QrCode.drawVersionInformation := rfl
    have hnone :
        ((((QrCode.new v ecl).drawTimingPatterns).drawFinderPatterns).drawAlignmentPatterns).drawFormatBits
          mask = none := by
      simp only [QrCode.drawFormatBits, ecLevel_pipeline]
      rw [if_pos (bne_iff_ne.mpr hfb)]
    rw [hbuild', hnone] at hbuild
    exact absurd hbuild (by simp)

/-- `getNumRawDataModules` succeeds on every in-range version. -/
theorem getNumRawDataModules_isSome (v : Nat) (h1 : 1 ≤ v) (h2 : v ≤ 40) :
    ∃ r, QrCode.getNumRawDataModules v = some r := by
  unfold QrCode.getNumRawDataModules
  rw [if_neg (show ¬(v < QrCode.MIN_VERSION ∨ v > QrCode.MAX_VERSION) by
    show ¬(v < 1 ∨ v > 40); omega)]
  exact ⟨_, rfl⟩

/-- C7: for every version in [1,40] and every error-correction level, any grid
successfully produced by the full function-pattern pipeline (fresh grid, then
timing, finder/separator, alignment, format information for any mask index
including the blank -1 sentinel, and version information) yields a zig-zag
scan with exactly `getNumRawDataModules` coordinate pairs. -/
theorem C7_scan_length_eq_raw_capacity (v : Nat) (ecl : ErrorCorrectionLevel)
    (mask : Option Nat) (g : QrCode) (h1 : 1 ≤ v) (h2 : v ≤ 40)
    (hbuild : buildFunctionPatterns v ecl mask = some g) :
    QrCode.getNumRawDataModules v = some g.makeZigZagScan.length := by
  have hg := buildFunctionPatterns_inv v ecl mask g h2 hbuild
  subst hg
  rw [length_scan_structural v ecl _ _ h1 h2]
  obtain ⟨r, hr⟩ := getNumRawDataModules_isSome v h1 h2
  rw [hr]
  rfl

/-- Witness for C7 at version 1, level LOW, blank mask. -/
theorem C7_witness : QrCode.getNumRawDataModules 1 =
    some (((QrCode.new 1 .LOW).applyWrites
      (structuralWrites 1 (1 * 4 + 17) (QrCode.formatBitsValue .LOW none)
        (versionBitsValue 1))).makeZigZagScan.length) :=
  C7_scan_length_eq_raw_capacity 1 .LOW none _ (by decide) (by decide)
    (buildFunctionPatterns_eq 1 .LOW none (by decide) (by omega))

/-! ### C5: the raw-capacity closed form -/

/-- Kernel-checked agreement of `getNumRawDataModules` with the exact-integer
closed form, for all versions 1..40. -/
theorem raw_spec_agrees : ∀ v, v < 41 → 1 ≤ v →
    (QrCode.getNumRawDataModules v).map (fun r => (r : Int)) = some (rawModulesSpec v) := by
  decide

/-- C5: `getNumRawDataModules v` equals the closed form `(16·v+128)·v+64`,
minus `(25·a-10)·a-55` with `a = ⌊v/7⌋+2` for `v ≥ 2`, minus a further 36
exactly when `v ≥ 7` (stated in exact integer arithmetic via
`rawModulesSpec`); in particular `getNumRawDataModules 1 = 208`. -/
theorem C5_raw_capacity_closed_form (v : Nat) (h1 : 1 ≤ v) (h2 : v ≤ 40) :
    (QrCode.getNumRawDataModules v).map (fun r => (r : Int)) = some (rawModulesSpec v) ∧
      QrCode.getNumRawDataModules 1 = some 208 :=
  ⟨raw_spec_agrees v (by omega) h1, by decide⟩

/-- Witness for C5 at version 1. -/
theorem C5_witness :
    (QrCode.getNumRawDataModules 1).map (fun r => (r : Int)) = some (rawModulesSpec 1) ∧
      QrCode.getNumRawDataModules 1 = some 208 :=
  C5_raw_capacity_closed_form 1 (by decide) (by decide)

/-! ### C6: the constructor performs no version-range check -/

/-- C6 (corrected): the specification says constructing a grid fails when the
version is outside [1,40], but the source constructor performs no range check.
For EVERY version — including the out-of-range versions 0 and 41 — the
constructor succeeds and returns the all-unfilled `size × size` grid with
`size = version*4+17`; the in-range part of the claim (square all-unfilled
grid of side `version*4+17`) does hold. -/
theorem C6_constructor_no_range_check :
    (∀ v ecl, (QrCode.new v ecl).size = v * 4 + 17 ∧
      (QrCode.new v ecl).modules =
        List.replicate (v * 4 + 17) (List.replicate (v * 4 + 17) .unfilled)) ∧
    ((QrCode.new 0 .LOW).modules =
      List.replicate 17 (List.replicate 17 .unfilled)) ∧
    ((QrCode.new 41 .LOW).modules =
      List.replicate 181 (List.replicate 181 .unfilled)) :=
  ⟨fun _ _ => ⟨rfl, rfl⟩, rfl, rfl⟩

/-- Counterexample to the specification's range check: version 0 is outside
[1,40], yet the constructor succeeds and returns a 17 × 17 all-unfilled
grid. -/
theorem C6_counterexample :
    (QrCode.new 0 .LOW).size = 17 ∧
      (QrCode.new 0 .LOW).modules =
        List.replicate 17 (List.replicate 17 .unfilled) :=
  ⟨rfl, rfl⟩

/-! ### C4: the format-information field -/

/-- Kernel-checked agreement of the source's format computation (which
multiplies by the full `rem >>> 9`) with the specification's formula (which
multiplies by `(rem >>> 9) & 1`), for each level and mask index 0..7. -/
theorem formatBits_agree_spec :
    ∀ ecl : ErrorCorrectionLevel, ∀ m, m < 8 →
      QrCode.formatBitsValue ecl (some m) = formatInfoSpec ecl m := by
  intro ecl
  cases ecl <;> decide

/-- C4: for every error-correction level and mask index 0..7, `drawFormatBits`
computes the 15-bit field as `(formatBits<<3 | mask)` followed by ten rounds
of `rem = (rem<<1) ^ ((rem>>>9)&1)*0x537`, combined as
`(data<<10 | rem) ^ 0x5412`; the blank `-1` sentinel (`none`) yields the
all-zero field, and every `FormatInfoModule` then written is light. -/
theorem C4_format_bits_field (ecl : ErrorCorrectionLevel) (m : Nat) (hm : m < 8)
    (size : Nat) :
    QrCode.formatBitsValue ecl (some m) = formatInfoSpec ecl m ∧
    QrCode.formatBitsValue ecl none = 0 ∧
    ∀ w ∈ formatWrites size (QrCode.formatBitsValue ecl none),
      (w.2.2).kindD = some .formatInfoMod → (w.2.2).colorD = false := by
  refine ⟨formatBits_agree_spec ecl m hm, rfl, ?_⟩
  intro w hw hk
  have hbit : ∀ i : Nat, QrCode.getBit (QrCode.formatBitsValue ecl none) i = false := by
    intro i
    show QrCode.getBit 0 i = false
    simp [QrCode.getBit, Nat.zero_shiftRight]
  simp only [formatWrites, List.mem_append, List.mem_map, List.mem_cons,
    List.not_mem_nil, or_false] at hw
  rcases hw with ((((h | h) | h) | h) | h) | h
  · obtain ⟨i, _, rfl⟩ := h; simp [Module.colorD, hbit]
  · rcases h with rfl | rfl | rfl <;> simp [Module.colorD, hbit]
  · obtain ⟨i, _, rfl⟩ := h; simp [Module.colorD, hbit]
  · obtain ⟨i, _, rfl⟩ := h; simp [Module.colorD, hbit]
  · obtain ⟨i, _, rfl⟩ := h; simp [Module.colorD, hbit]
  · rcases h with rfl; simp [Module.kindD] at hk

/-- Witness for C4 at level LOW, mask 0, size 21. -/
theorem C4_witness :
    QrCode.formatBitsValue .LOW (some 0) = formatInfoSpec .LOW 0 ∧
    QrCode.formatBitsValue .LOW none = 0 ∧
    ∀ w ∈ formatWrites 21 (QrCode.formatBitsValue .LOW none),
      (w.2.2).kindD = some .formatInfoMod → (w.2.2).colorD = false :=
  C4_format_bits_field .LOW 0 (by decide) 21

/-! ### C10: penalty rule 4 finds the least k -/

/-- The rule-4 loop returns the smallest `k ≥ k0` whose window contains
`dist`, for positive `total`. -/
theorem rule4Go_spec (dist total : Nat) (htot : 0 < total) :
    ∀ fuel k, dist - k * total ≤ fuel →
      (dist ≤ (rule4Go dist total k + 1) * total ∧
        k ≤ rule4Go dist total k ∧
        ∀ j, k ≤ j → dist ≤ (j + 1) * total → rule4Go dist total k ≤ j) := by
  intro fuel
  induction fuel with
  | zero =>
      intro k hk
      have hle : ¬ dist > (k + 1) * total := by
        simp only [Nat.succ_mul]
        omega
      have hr : rule4Go dist total k = k := by
        rw [rule4Go, if_neg hle]
      rw [hr]
      exact ⟨by omega, Nat.le_refl k, fun j hj _ => hj⟩
  | succ fuel ih =>
      intro k hk
      by_cases hgt : dist > (k + 1) * total
      · have hr : rule4Go dist total k = rule4Go dist total (k + 1) := by
          rw [rule4Go, if_pos hgt, if_neg (by omega)]
        have hfuel : dist - (k + 1) * total ≤ fuel := by
          have : (k + 1) * total = k * total + total := by ring
          omega
        obtain ⟨h1, h2, h3⟩ := ih (k + 1) hfuel
        rw [hr]
        refine ⟨h1, by omega, fun j hj hje => ?_⟩
        have hkj : k + 1 ≤ j := by
          rcases Nat.lt_or_ge j (k + 1) with hlt | hge
          · have : j = k := by omega
            subst this
            omega
          · exact hge
        exact h3 j hkj hje
      · have hr : rule4Go dist total k = k := by
          rw [rule4Go, if_neg hgt]
        rw [hr]
        exact ⟨by omega, Nat.le_refl k, fun j hj _ => hj⟩

/-- C10: the rule-4 contribution of `computePenalties` is `10·k` where `k` is
the smallest integer `k ≥ 0` with `|black·20 − total·10| ≤ (k+1)·total`
(`black` the dark-cell count, `total = size²`). -/
theorem C10_penalty_rule4 (qr : QrCode) (h : 0 < qr.size) :
    ∃ k, qr.computePenalty4 = 10 * k ∧
      ((qr.countBlackModules : Int) * 20 -
        ((qr.size * qr.size : Nat) : Int) * 10).natAbs ≤ (k + 1) * (qr.size * qr.size) ∧
      ∀ j, ((qr.countBlackModules : Int) * 20 -
          ((qr.size * qr.size : Nat) : Int) * 10).natAbs ≤ (j + 1) * (qr.size * qr.size) →
        k ≤ j := by
  have htot : 0 < qr.size * qr.size := Nat.mul_pos h h
  obtain ⟨h1, _, h3⟩ := rule4Go_spec
    (((qr.countBlackModules : Int) * 20 -
      ((qr.size * qr.size : Nat) : Int) * 10).natAbs) (qr.size * qr.size) htot
    (((qr.countBlackModules : Int) * 20 -
      ((qr.size * qr.size : Nat) : Int) * 10).natAbs) 0 (by omega)
  refine ⟨_, ?_, h1, fun j hj => h3 j (Nat.zero_le j) hj⟩
  show rule4Go _ _ 0 * QrCode.PENALTY_N4 = 10 * rule4Go _ _ 0
  rw [Nat.mul_comm]
  rfl

/-- Witness for C10 on a fresh version-1 grid. -/
theorem C10_witness : ∃ k, (QrCode.new 1 .LOW).computePenalty4 = 10 * k ∧
    (((QrCode.new 1 .LOW).countBlackModules : Int) * 20 -
      (((QrCode.new 1 .LOW).size * (QrCode.new 1 .LOW).size : Nat) : Int) * 10).natAbs ≤
        (k + 1) * ((QrCode.new 1 .LOW).size * (QrCode.new 1 .LOW).size) ∧
    ∀ j, (((QrCode.new 1 .LOW).countBlackModules : Int) * 20 -
        (((QrCode.new 1 .LOW).size * (QrCode.new 1 .LOW).size : Nat) : Int) * 10).natAbs ≤
          (j + 1) * ((QrCode.new 1 .LOW).size * (QrCode.new 1 .LOW).size) →
      k ≤ j :=
  C10_penalty_rule4 (QrCode.new 1 .LOW) (by decide)

/-! ### C8: the GF(256) multiply -/

theorem multiplyRaw_eq_mulF (x y : Nat) :
    ReedSolomonGenerator.multiplyRaw x y = mulF x y := rfl

theorem mulF_zero (x : Nat) : mulF x 0 = 0 := by
  simp [mulF, mstep]

theorem mulF_one (x : Nat) : mulF x 1 = x := by
  simp [mulF, mstep]

theorem mulRowAll_extract : ∀ n x, mulRowAll x n = true →
    ∀ j < n, mulPairOK x (x + j) = true := by
  intro n
  induction n with
  | zero => intro x _ j hj; omega
  | succ n ih =>
      intro x hall j hj
      have hstep : mulRowAll x (n + 1) =
          cond (mulPairOK x (x + n)) (mulRowAll x n) false := rfl
      rw [hstep] at hall
      cases hc : mulPairOK x (x + n) with
      | false => rw [hc] at hall; simp at hall
      | true =>
          rw [hc, cond_true] at hall
          rcases Nat.lt_or_ge j n with hlt | hge
          · exact ih x hall j hlt
          · have hj' : j = n := by omega
            rw [hj']; exact hc

theorem mulRowsFrom_extract : ∀ lo n, mulRowsFrom lo n = true →
    ∀ k < n, mulRowAll (lo + k) (256 - (lo + k)) = true := by
  intro lo n
  induction n with
  | zero => intro _ k hk; omega
  | succ n ih =>
      intro hall k hk
      have hstep : mulRowsFrom lo (n + 1) =
          cond (mulRowAll (lo + n) (256 - (lo + n))) (mulRowsFrom lo n) false := rfl
      rw [hstep] at hall
      cases hc : mulRowAll (lo + n) (256 - (lo + n)) with
      | false => rw [hc] at hall; simp at hall
      | true =>
          rw [hc, cond_true] at hall
          rcases Nat.lt_or_ge k n with hlt | hge
          · exact ih hall k hlt
          · have hk' : k = n := by omega
            rw [hk']; exact hc

theorem mulRow_all (x : Nat) (hx : x < 256) : mulRowAll x (256 - x) = true := by
  have key : ∀ lo, mulRowsFrom lo 32 = true → lo ≤ x → x < lo + 32 →
      mulRowAll x (256 - x) = true := by
    intro lo hall hlo hhi
    have h0 := mulRowsFrom_extract lo 32 hall (x - lo) (by omega)
    rw [show lo + (x - lo) = x by omega] at h0
    exact h0
  rcases Nat.lt_or_ge x 32 with h | h
  · exact key 0 mulRows0 (by omega) (by omega)
  rcases Nat.lt_or_ge x 64 with h2 | h2
  · exact key 32 mulRows1 (by omega) (by omega)
  rcases Nat.lt_or_ge x 96 with h3 | h3
  · exact key 64 mulRows2 (by omega) (by omega)
  rcases Nat.lt_or_ge x 128 with h4 | h4
  · exact key 96 mulRows3 (by omega) (by omega)
  rcases Nat.lt_or_ge x 160 with h5 | h5
  · exact key 128 mulRows4 (by omega) (by omega)
  rcases Nat.lt_or_ge x 192 with h6 | h6
  · exact key 160 mulRows5 (by omega) (by omega)
  rcases Nat.lt_or_ge x 224 with h7 | h7
  · exact key 192 mulRows6 (by omega) (by omega)
  exact key 224 mulRows7 (by omega) (by omega)

theorem mulPair_all (x y : Nat) (hx : x < 256) (hy : y < 256) (hxy : x ≤ y) :
    mulPairOK x y = true := by
  have hrow := mulRow_all x hx
  have hj := mulRowAll_extract (256 - x) x hrow (y - x) (by omega)
  have hxyx : x + (y - x) = y := by omega
  rw [hxyx] at hj
  exact hj

theorem mulF_facts (x y : Nat) (hx : x < 256) (hy : y < 256) :
    mulF x y < 256 ∧ mulF x y = mulF y x := by
  rcases Nat.le_total x y with hle | hle
  · have h := mulPair_all x y hx hy hle
    simp only [mulPairOK, Bool.and_eq_true, Nat.blt_eq, Nat.beq_eq] at h
    exact h
  · have h := mulPair_all y x hy hx hle
    simp only [mulPairOK, Bool.and_eq_true, Nat.blt_eq, Nat.beq_eq] at h
    exact ⟨h.2 ▸ h.1, h.2.symm⟩

theorem shiftRight8_eq_zero_iff (a : Nat) : a >>> 8 = 0 ↔ a < 256 := by
  rw [Nat.shiftRight_eq_div_pow]
  constructor
  · intro h
    have h2 : (0 : Nat) < 2 ^ 8 := by norm_num
    have h3 := (Nat.div_eq_zero_iff (a := a) h2).1 h
    omega
  · intro h
    exact Nat.div_eq_of_lt (by omega)

/-- Successful multiplications compute `mulF`. -/
theorem multiply_eq_some (a b : Nat) (ha : a < 256) (hb : b < 256)
    (hab : mulF a b < 256) :
    ReedSolomonGenerator.multiply a b = some (mulF a b) := by
  have hc1 : ¬(a >>> 8 != 0 ∨ b >>> 8 != 0) := by
    rw [(shiftRight8_eq_zero_iff a).2 ha, (shiftRight8_eq_zero_iff b).2 hb]
    simp
  have hc2 : ¬(ReedSolomonGenerator.multiplyRaw a b >>> 8 != 0) := by
    rw [multiplyRaw_eq_mulF, (shiftRight8_eq_zero_iff _).2 hab]
    simp
  unfold ReedSolomonGenerator.multiply
  rw [if_neg hc1, if_neg hc2, multiplyRaw_eq_mulF]

/-- C8: for bytes `x`, `y` in [0,255]: `multiply x 1 = x`, `multiply x 0 = 0`,
`multiply` is commutative, and the product is again a byte (the internal
8-significant-bit assertion never fires, so the result is `some`). -/
theorem C8_gf_multiply (x y : Nat) (hx : x < 256) (hy : y < 256) :
    ReedSolomonGenerator.multiply x 1 = some x ∧
    ReedSolomonGenerator.multiply x 0 = some 0 ∧
    ReedSolomonGenerator.multiply x y = ReedSolomonGenerator.multiply y x ∧
    ∃ r, ReedSolomonGenerator.multiply x y = some r ∧ r < 256 := by
  obtain ⟨hlt, hcomm⟩ := mulF_facts x y hx hy
  refine ⟨?_, ?_, ?_, ⟨mulF x y, multiply_eq_some x y hx hy hlt, hlt⟩⟩
  · have h1 := multiply_eq_some x 1 hx (by omega) (by rw [mulF_one]; exact hx)
    rw [h1, mulF_one]
  · have h0 := multiply_eq_some x 0 hx (by omega) (by rw [mulF_zero]; omega)
    rw [h0, mulF_zero]
  · rw [multiply_eq_some x y hx hy hlt, multiply_eq_some y x hy hx (hcomm ▸ hlt), hcomm]

/-- Witness for C8 at x = 2, y = 3. -/
theorem C8_witness :
    ReedSolomonGenerator.multiply 2 1 = some 2 ∧
    ReedSolomonGenerator.multiply 2 0 = some 0 ∧
    ReedSolomonGenerator.multiply 2 3 = ReedSolomonGenerator.multiply 3 2 ∧
    ∃ r, ReedSolomonGenerator.multiply 2 3 = some r ∧ r < 256 :=
  C8_gf_multiply 2 3 (by decide) (by decide)

/-! ### C9: the Reed-Solomon remainder -/

theorem multiply_some_lt {a b m : Nat}
    (h : ReedSolomonGenerator.multiply a b = some m) : m < 256 := by
  unfold ReedSolomonGenerator.multiply at h
  split_ifs at h with hg1 hg2
  have hz : ReedSolomonGenerator.multiplyRaw a b >>> 8 = 0 := by
    simpa [bne_iff_ne] using hg2
  rw [← Option.some.inj h]
  exact (shiftRight8_eq_zero_iff _).1 hz

theorem mapM_some_length {α β : Type} (f : α → Option β) :
    ∀ l : List α, ∀ r, l.mapM f = some r → r.length = l.length := by
  intro l
  induction l with
  | nil =>
      intro r h
      rw [List.mapM_nil] at h
      have hr := Option.some.inj h
      rw [← hr]
      rfl
  | cons a l ih =>
      intro r h
      rw [List.mapM_cons] at h
      cases hfa : f a with
      | none => rw [hfa] at h; simp at h
      | some b =>
          rw [hfa] at h
          cases hbs : l.mapM f with
          | none => rw [hbs] at h; simp at h
          | some bs =>
              rw [hbs] at h
              simp at h
              rw [← h]
              simp [ih bs hbs]

theorem rsPassAux_length (root : Nat) :
    ∀ l r, ReedSolomonGenerator.rsPassAux root l = some r → r.length = l.length := by
  intro l
  induction l with
  | nil =>
      intro r h
      simp only [ReedSolomonGenerator.rsPassAux] at h
      simp at h
      rw [← h]
  | cons c tail ih =>
      cases tail with
      | nil =>
          intro r h
          simp only [ReedSolomonGenerator.rsPassAux] at h
          cases hm : ReedSolomonGenerator.multiply c root with
          | none => rw [hm] at h; simp at h
          | some m =>
              rw [hm] at h
              simp at h
              rw [← h]
              rfl
      | cons c2 rest =>
          intro r h
          simp only [ReedSolomonGenerator.rsPassAux] at h
          cases hm : ReedSolomonGenerator.multiply c root with
          | none => rw [hm] at h; simp at h
          | some m =>
              rw [hm] at h
              cases ht : ReedSolomonGenerator.rsPassAux root (c2 :: rest) with
              | none => rw [ht] at h; simp at h
              | some tl =>
                  rw [ht] at h
                  simp at h
                  rw [← h]
                  simp [ih tl ht]

theorem rsPassAux_bounds (root : Nat) :
    ∀ l r, ReedSolomonGenerator.rsPassAux root l = some r →
      (∀ c ∈ l, c < 256) → ∀ c ∈ r, c < 256 := by
  intro l
  induction l with
  | nil =>
      intro r h _
      simp only [ReedSolomonGenerator.rsPassAux] at h
      simp at h
      rw [h]
      simp
  | cons c tail ih =>
      cases tail with
      | nil =>
          intro r h _
          simp only [ReedSolomonGenerator.rsPassAux] at h
          cases hm : ReedSolomonGenerator.multiply c root with
          | none => rw [hm] at h; simp at h
          | some m =>
              rw [hm] at h
              simp at h
              rw [← h]
              intro c' hc'
              rw [List.mem_singleton.1 hc']
              exact multiply_some_lt hm
      | cons c2 rest =>
          intro r h hb
          simp only [ReedSolomonGenerator.rsPassAux] at h
          cases hm : ReedSolomonGenerator.multiply c root with
          | none => rw [hm] at h; simp at h
          | some m =>
              rw [hm] at h
              cases ht : ReedSolomonGenerator.rsPassAux root (c2 :: rest) with
              | none => rw [ht] at h; simp at h
              | some tl =>
                  rw [ht] at h
                  simp at h
                  rw [← h]
                  intro c' hc'
                  rcases List.mem_cons.1 hc' with rfl | hc'
                  · have h256 : (256 : Nat) = 2 ^ 8 := by norm_num
                    rw [h256]
                    exact Nat.xor_lt_two_pow
                      (by rw [← h256]; exact multiply_some_lt hm)
                      (by rw [← h256]; exact hb c2 (List.mem_cons_of_mem _ (List.mem_cons_self ..)))
                  · exact ih tl ht (fun a ha => hb a (List.mem_cons_of_mem _ ha)) c' hc'

theorem genLoop_facts :
    ∀ n root coefs r, ReedSolomonGenerator.genLoop n root coefs = some r →
      r.length = coefs.length ∧ ((∀ c ∈ coefs, c < 256) → ∀ c ∈ r, c < 256) := by
  intro n
  induction n with
  | zero =>
      intro root coefs r h
      simp only [ReedSolomonGenerator.genLoop] at h
      simp at h
      rw [← h]
      exact ⟨rfl, fun hb => hb⟩
  | succ n ih =>
      intro root coefs r h
      simp only [ReedSolomonGenerator.genLoop] at h
      cases hp : ReedSolomonGenerator.rsPassAux root coefs with
      | none => rw [hp] at h; simp at h
      | some coefs2 =>
          rw [hp] at h
          cases hr2 : ReedSolomonGenerator.multiply root 2 with
          | none => rw [hr2] at h; simp at h
          | some root2 =>
              rw [hr2] at h
              simp at h
              obtain ⟨hl, hb⟩ := ih root2 coefs2 r h
              refine ⟨hl.trans (rsPassAux_length root coefs coefs2 hp), fun hbc => ?_⟩
              exact hb (rsPassAux_bounds root coefs coefs2 hp hbc)

theorem mkCoefficients_facts (degree : Nat) (coefs : List Nat)
    (hmk : ReedSolomonGenerator.mkCoefficients degree = some coefs) :
    coefs.length = degree ∧ ∀ c ∈ coefs, c < 256 := by
  unfold ReedSolomonGenerator.mkCoefficients at hmk
  split_ifs at hmk with hrange
  obtain ⟨hl, hb⟩ := genLoop_facts degree 1 _ coefs hmk
  constructor
  · rw [hl]
    simp only [List.length_append, List.length_replicate, List.length_singleton]
    omega
  · apply hb
    intro c hc
    rcases List.mem_append.1 hc with hc | hc
    · rw [List.eq_of_mem_replicate hc]; omega
    · rw [List.mem_singleton.1 hc]; omega

theorem remainderLoop_cons (coefs : List Nat) (b : Nat) (rest result : List Nat) :
    ReedSolomonGenerator.remainderLoop coefs (b :: rest) result =
      ((coefs.zip (result.tail ++ [0])).mapM
        (fun p => (ReedSolomonGenerator.multiply p.1 (b ^^^ result.headD 0)).map
          (fun m => p.2 ^^^ m))).bind
        (ReedSolomonGenerator.remainderLoop coefs rest) := rfl

theorem remainderLoop_length (coefs : List Nat) (h1 : 1 ≤ coefs.length) :
    ∀ data result r, result.length = coefs.length →
      ReedSolomonGenerator.remainderLoop coefs data result = some r →
      r.length = coefs.length := by
  intro data
  induction data with
  | nil =>
      intro result r hlen h
      simp only [ReedSolomonGenerator.remainderLoop] at h
      simp at h
      rw [← h]
      exact hlen
  | cons b rest ih =>
      intro result r hlen h
      rw [remainderLoop_cons] at h
      cases hm : ((coefs.zip (result.tail ++ [0])).mapM
          (fun p => (ReedSolomonGenerator.multiply p.1 (b ^^^ result.headD 0)).map
            (fun m => p.2 ^^^ m))) with
      | none => rw [hm] at h; simp at h
      | some res2 =>
          rw [hm] at h
          simp only [Option.some_bind] at h
          have hlen2 : res2.length = coefs.length := by
            have hzl := mapM_some_length _ _ _ hm
            rw [List.length_zip, List.length_append, List.length_tail, hlen] at hzl
            simp only [List.length_singleton] at hzl
            omega
          exact ih res2 r hlen2 h

theorem mapM_zip_zero :
    ∀ coefs : List Nat, (∀ c ∈ coefs, c < 256) →
    ∀ zs : List Nat, (∀ z ∈ zs, z = 0) →
      ((coefs.zip zs).mapM'
        (fun p => (ReedSolomonGenerator.multiply p.1 0).map (fun m => p.2 ^^^ m))) =
        some (List.replicate (min coefs.length zs.length) 0) := by
  intro coefs
  induction coefs with
  | nil => intro _ zs _; simp [List.mapM']
  | cons c cs ih =>
      intro hb zs hz
      cases zs with
      | nil => simp [List.mapM']
      | cons z zs' =>
          have hc : c < 256 := hb c (List.mem_cons_self ..)
          have hz0 : z = 0 := hz z (List.mem_cons_self ..)
          have hmul : ReedSolomonGenerator.multiply c 0 = some 0 := by
            have hs := multiply_eq_some c 0 hc (by omega) (by rw [mulF_zero]; omega)
            rw [hs, mulF_zero]
          have ihr := ih (fun c' hc' => hb c' (List.mem_cons_of_mem _ hc')) zs'
            (fun z' hz' => hz z' (List.mem_cons_of_mem _ hz'))
          rw [List.zip_cons_cons]
          have hstep : (((c, z) :: cs.zip zs').mapM'
              (fun p => (ReedSolomonGenerator.multiply p.1 0).map (fun m => p.2 ^^^ m))) =
              (((ReedSolomonGenerator.multiply c 0).map (fun m => z ^^^ m)).bind
                (fun b => ((cs.zip zs').mapM'
                  (fun p => (ReedSolomonGenerator.multiply p.1 0).map (fun m => p.2 ^^^ m))).bind
                    (fun bs => some (b :: bs)))) := rfl
          rw [hstep, hmul, ihr]
          simp only [Option.map_some', Option.some_bind, hz0, Nat.zero_xor,
            List.length_cons, Nat.succ_min_succ, List.replicate_succ]

theorem remainderLoop_zero (coefs : List Nat) (hb : ∀ c ∈ coefs, c < 256)
    (h1 : 1 ≤ coefs.length) :
    ∀ data, (∀ b ∈ data, b = 0) →
      ReedSolomonGenerator.remainderLoop coefs data (List.replicate coefs.length 0) =
        some (List.replicate coefs.length 0) := by
  intro data
  induction data with
  | nil => intro _; rfl
  | cons b rest ih =>
      intro hz
      have hb0 : b = 0 := hz b (List.mem_cons_self ..)
      rw [remainderLoop_cons]
      have htail : (List.replicate coefs.length (0 : Nat)).tail ++ [0] =
          List.replicate coefs.length 0 := by
        cases hn : coefs.length with
        | zero => omega
        | succ k =>
            simp only [List.replicate_succ, List.tail_cons]
            exact (List.replicate_succ' ..).symm
      have hhead : (List.replicate coefs.length (0 : Nat)).headD 0 = 0 := by
        cases coefs.length <;> simp [List.replicate_succ]
      rw [htail, hb0, hhead]
      simp only [Nat.zero_xor]
      rw [(List.mapM'_eq_mapM
          (fun p : Nat × Nat =>
            (ReedSolomonGenerator.multiply p.1 0).map (fun m => p.2 ^^^ m))
          (coefs.zip (List.replicate coefs.length 0))).symm]
      rw [mapM_zip_zero coefs hb (List.replicate coefs.length 0)
        (fun z hz' => List.eq_of_mem_replicate hz')]
      simp only [List.length_replicate, Nat.min_self, Option.some_bind]
      exact ih (fun b' hb' => hz b' (List.mem_cons_of_mem _ hb'))

/-- C9: for every degree in [1,255], the generator's coefficient list has
length `degree`; the Reed-Solomon remainder of any data sequence (whenever the
division returns) has length `degree`, and for an all-zero data sequence the
returned remainder is the all-zero sequence. -/
theorem C9_rs_remainder (degree : Nat) (h1 : 1 ≤ degree) (h2 : degree ≤ 255)
    (coefs : List Nat) (hmk : ReedSolomonGenerator.mkCoefficients degree = some coefs)
    (data : List Nat) :
    (∀ rem, ReedSolomonGenerator.getRemainder coefs data = some rem →
      rem.length = degree) ∧
    ((∀ b ∈ data, b = 0) →
      ReedSolomonGenerator.getRemainder coefs data = some (List.replicate degree 0)) := by
  obtain ⟨hlen, hbnd⟩ := mkCoefficients_facts degree coefs hmk
  have hd1 : 1 ≤ coefs.length := by omega
  constructor
  · intro rem h
    unfold ReedSolomonGenerator.getRemainder at h
    have hinit : (coefs.map (fun _ => (0 : Nat))).length = coefs.length := by simp
    have hr := remainderLoop_length coefs hd1 data _ rem hinit h
    omega
  · intro hz
    unfold ReedSolomonGenerator.getRemainder
    rw [List.map_const', ← hlen]
    exact remainderLoop_zero coefs hbnd hd1 data hz

/-- Witness for C9 at degree 1 with data [0]. -/
theorem C9_witness :
    (∀ rem, ReedSolomonGenerator.getRemainder [1] [0] = some rem →
      rem.length = 1) ∧
    ((∀ b ∈ ([0] : List Nat), b = 0) →
      ReedSolomonGenerator.getRemainder [1] [0] = some (List.replicate 1 0)) :=
  C9_rs_remainder 1 (by decide) (by decide) [1] (by decide) [0]

/-! ### C2 and C3: masking -/

theorem foldl_grid_preserve {α : Type} (P : QrCode → Prop) (f : QrCode → α → QrCode)
    (hf : ∀ g a, P g → P (f g a)) : ∀ (l : List α) (g : QrCode), P g → P (l.foldl f g) := by
  intro l
  induction l with
  | nil => intro g hg; exact hg
  | cons a l ih => intro g hg; exact ih _ (hf g a hg)

/-- `applyMask` written with the named per-cell step. -/
theorem applyMask_eq_fold (qr mq : QrCode) :
    qr.applyMask mq = (List.range qr.size).foldl (fun g x =>
      (List.range qr.size).foldl (fun g y => maskStepGrid mq g x y) g) qr := rfl

theorem maskStepGrid_module_ne (mq g : QrCode) {a b x y : Nat}
    (h : ¬(a = x ∧ b = y)) :
    (maskStepGrid mq g a b).module x y = g.module x y := by
  unfold maskStepGrid
  split
  · split
    · rw [QrCode.module_setModule_ne _ _ (by tauto)]
    · rfl
  · rfl

theorem maskStepGrid_module_self (mq g : QrCode) (a b : Nat) :
    (maskStepGrid mq g a b).module a b = maskStep (mq.module a b) (g.module a b) := by
  unfold maskStepGrid
  split
  · rename_i mk mc mn hmq
    split
    · rename_i k c n hg
      rw [hmq, hg, QrCode.module_setModule_self]
      · rfl
      · exact (QrCode.bounds_of_module_ne_unfilled (by rw [hg]; simp)).1
      · exact (QrCode.bounds_of_module_ne_unfilled (by rw [hg]; simp)).2
    · rename_i hg
      rw [hmq, hg]
      rfl
  · rename_i hmq
    rw [hmq]
    rfl

theorem maskStepGrid_size (mq g : QrCode) (a b : Nat) :
    (maskStepGrid mq g a b).size = g.size := by
  unfold maskStepGrid
  split
  · split
    · rw [QrCode.size_setModule]
    · rfl
  · rfl

theorem applyMask_size (qr mq : QrCode) : (qr.applyMask mq).size = qr.size := by
  rw [applyMask_eq_fold]
  refine foldl_grid_preserve (fun g => g.size = qr.size) _ ?_ _ _ rfl
  intro g a hg
  refine foldl_grid_preserve (fun g => g.size = qr.size) _ ?_ _ _ hg
  intro g' b hg'
  rw [maskStepGrid_size]
  exact hg'

theorem maskFold_inner_module (mq : QrCode) (a : Nat) :
    ∀ (n : Nat) (g : QrCode) (x y : Nat),
      ((List.range n).foldl (fun g b => maskStepGrid mq g a b) g).module x y =
        if a = x ∧ y < n then maskStep (mq.module x y) (g.module x y)
        else g.module x y := by
  intro n
  induction n with
  | zero =>
      intro g x y
      rw [if_neg (by omega)]
      rfl
  | succ n ih =>
      intro g x y
      rw [List.range_succ, List.foldl_append, List.foldl_cons, List.foldl_nil]
      by_cases hay : a = x ∧ n = y
      · obtain ⟨ha, hn⟩ := hay
        rw [← ha, ← hn]
        rw [maskStepGrid_module_self, ih g a n]
        rw [if_neg (by omega), if_pos (by omega)]
      · rw [maskStepGrid_module_ne mq _ hay, ih g x y]
        by_cases hax : a = x
        · subst hax
          by_cases hyn : y < n
          · rw [if_pos (by omega), if_pos (by omega)]
          · rw [if_neg (by omega), if_neg (by omega)]
        · rw [if_neg (by tauto), if_neg (by tauto)]

theorem applyMask_module (qr mq : QrCode) (x y : Nat) :
    (qr.applyMask mq).module x y =
      if x < qr.size ∧ y < qr.size then maskStep (mq.module x y) (qr.module x y)
      else qr.module x y := by
  rw [applyMask_eq_fold]
  have houter : ∀ (m : Nat) (g : QrCode),
      ((List.range m).foldl (fun g a =>
        (List.range qr.size).foldl (fun g b => maskStepGrid mq g a b) g) g).module x y =
      if x < m ∧ y < qr.size then maskStep (mq.module x y) (g.module x y)
      else g.module x y := by
    intro m
    induction m with
    | zero =>
        intro g
        rw [if_neg (by omega)]
        rfl
    | succ m ih =>
        intro g
        rw [List.range_succ, List.foldl_append, List.foldl_cons, List.foldl_nil]
        rw [maskFold_inner_module, ih g]
        by_cases hy : y < qr.size
        · by_cases hmx : m = x
          · subst hmx
            rw [if_pos ⟨rfl, hy⟩, if_neg (by omega), if_pos (by omega)]
          · rw [if_neg (by tauto)]
            by_cases hx : x < m
            · rw [if_pos ⟨hx, hy⟩, if_pos (by omega)]
            · rw [if_neg (by tauto), if_neg (by omega)]
        · rw [if_neg (by tauto), if_neg (by tauto), if_neg (by tauto)]
  exact houter qr.size qr

/-- A cell whose mask counterpart is unfilled is untouched by `applyMask`. -/
theorem applyMask_preserves (qr mq : QrCode) (x y : Nat)
    (hm : mq.module x y = Module.unfilled) :
    (qr.applyMask mq).module x y = qr.module x y := by
  rw [applyMask_module, hm]
  split
  · rfl
  · rfl

/-- `makeMask` leaves the mask cells of function-pattern positions
unfilled. -/
theorem makeMaskRaw_function_unfilled (qr : QrCode) (m : Nat) (x y : Nat)
    (hfun : (qr.module x y).isFunction = true) :
    (qr.makeMaskRaw m).module x y = Module.unfilled := by
  unfold QrCode.makeMaskRaw
  refine foldl_grid_preserve (fun g => g.module x y = Module.unfilled) _ ?_ _ _
    (QrCode.module_new qr.version qr.errorCorrectionLevel x y)
  intro g a hg
  refine foldl_grid_preserve (fun g => g.module x y = Module.unfilled) _ ?_ _ _ hg
  intro g' b hg'
  by_cases hab : a = x ∧ b = y
  · obtain ⟨rfl, rfl⟩ := hab
    rw [if_neg (by rw [hfun]; simp)]
    exact hg'
  · split
    · rw [QrCode.module_setModule_ne _ _ (by tauto)]
      exact hg'
    · exact hg'

/-- C2: for every mask index 0..7, applying the mask produced by `makeMask` to
a grid leaves every function-pattern (Structural) cell of that grid
unchanged. -/
theorem C2_mask_preserves_function_cells (qr : QrCode) (m : Nat) (hm : m < 8)
    (mq : QrCode) (hmq : qr.makeMask m = some mq) (x y : Nat)
    (hfun : (qr.module x y).isFunction = true) :
    (qr.applyMask mq).module x y = qr.module x y := by
  have hmq' : mq = qr.makeMaskRaw m := by
    unfold QrCode.makeMask at hmq
    rw [if_neg (by omega)] at hmq
    exact (Option.some.inj hmq).symm
  subst hmq'
  exact applyMask_preserves qr _ x y (makeMaskRaw_function_unfilled qr m x y hfun)

/-- Witness for C2 on a 1-cell grid holding a timing module, mask 0. -/
theorem C2_witness :
    ((⟨1, .LOW, 1, [[Module.filledM .timingMod true true]]⟩ : QrCode).applyMask
        ((⟨1, .LOW, 1, [[Module.filledM .timingMod true true]]⟩ : QrCode).makeMaskRaw 0)).module 0 0 =
      (⟨1, .LOW, 1, [[Module.filledM .timingMod true true]]⟩ : QrCode).module 0 0 :=
  C2_mask_preserves_function_cells
    (⟨1, .LOW, 1, [[Module.filledM .timingMod true true]]⟩ : QrCode) 0 (by decide)
    _ rfl 0 0 (by decide)

/-- C3: on a grid whose cells (in range) are all filled, applying the same
`makeMask`-produced mask twice restores every cell, so masking is an
involution on the data/remainder colors. -/
theorem C3_applyMask_involution (qr : QrCode) (m : Nat) (hm : m < 8) (mq : QrCode)
    (hmq : qr.makeMask m = some mq)
    (hfill : ∀ x y, x < qr.size → y < qr.size → (qr.module x y).isFilled = true)
    (x y : Nat) :
    ((qr.applyMask mq).applyMask mq).module x y = qr.module x y := by
  have hsz : (qr.applyMask mq).size = qr.size := applyMask_size qr mq
  rw [applyMask_module (qr.applyMask mq) mq x y, hsz, applyMask_module qr mq x y]
  by_cases hxy : x < qr.size ∧ y < qr.size
  · rw [if_pos hxy, if_pos hxy]
    rcases hmqm : mq.module x y with _ | ⟨k0, mc, n0⟩
    · simp [maskStep]
    · have hq := hfill x y hxy.1 hxy.2
      rcases hqm : qr.module x y with _ | ⟨k, c, n⟩
      · rw [hqm] at hq
        simp [Module.isFilled] at hq
      · have hb : ((c != mc) != mc) = c := by
          cases c <;> cases mc <;> rfl
        simp [maskStep, hb]
  · rw [if_neg hxy, if_neg hxy]

/-- Witness for C3 on a 1-cell all-filled grid, mask 0. -/
theorem C3_witness :
    (((⟨1, .LOW, 1, [[Module.filledM .plainMod true true]]⟩ : QrCode).applyMask
        ((⟨1, .LOW, 1, [[Module.filledM .plainMod true true]]⟩ : QrCode).makeMaskRaw 0)).applyMask
        ((⟨1, .LOW, 1, [[Module.filledM .plainMod true true]]⟩ : QrCode).makeMaskRaw 0)).module 0 0 =
      (⟨1, .LOW, 1, [[Module.filledM .plainMod true true]]⟩ : QrCode).module 0 0 :=
  C3_applyMask_involution
    (⟨1, .LOW, 1, [[Module.filledM .plainMod true true]]⟩ : QrCode) 0 (by decide)
    _ rfl
    (by
      intro x y hx hy
      have hx1 : x < 1 := hx
      have hy1 : y < 1 := hy
      have hx0 : x = 0 := by omega
      have hy0 : y = 0 := by omega
      subst hx0
      subst hy0
      rfl) 0 0

/-! ### C1: the codeword round trip -/

theorem zigZagRights_bounds : ∀ e, ∀ r ∈ zigZagRights e, 1 ≤ r ∧ r ≤ e := by
  intro e
  induction e using Nat.strong_induction_on with
  | _ e ih =>
      intro r hr
      by_cases h1 : 1 ≤ e
      · rw [zigZagRights, dif_pos h1] at hr
        rcases List.mem_cons.1 hr with heq | hr2
        · subst heq
          constructor
          · split <;> omega
          · split <;> omega
        · have hb := ih ((if e = 6 then 5 else e) - 2) (by split <;> omega) r hr2
          refine ⟨hb.1, ?_⟩
          have h2 := hb.2
          revert h2
          split <;> omega
      · rw [zigZagRights, dif_neg h1] at hr
        simp at hr

theorem zigZagRights_pairwise : ∀ e, (zigZagRights e).Pairwise (fun a b => b + 1 < a) := by
  intro e
  induction e using Nat.strong_induction_on with
  | _ e ih =>
      by_cases h1 : 1 ≤ e
      · rw [zigZagRights, dif_pos h1]
        refine List.pairwise_cons.2 ⟨?_, ?_⟩
        · intro b hb
          have h2 := (zigZagRights_bounds _ b hb).2
          have hb1 := (zigZagRights_bounds _ b hb).1
          revert h2 hb1
          split <;> omega
        · exact ih ((if e = 6 then 5 else e) - 2) (by split <;> omega)
      · rw [zigZagRights, dif_neg h1]
        exact List.Pairwise.nil

theorem scanStrip_mem (qr : QrCode) (right : Nat) :
    ∀ p ∈ scanStrip qr right,
      (p.1 = right ∨ p.1 = right - 1) ∧ p.2 < qr.size ∧
        (qr.module p.1 p.2).isUnfilled = true := by
  intro p hp
  simp only [scanStrip, List.mem_flatMap, List.mem_filterMap, List.mem_range] at hp
  obtain ⟨vert, hvert, j, hj, hsome⟩ := hp
  split_ifs at hsome with hb hu hu2
  · rw [← Option.some.inj hsome]
    refine ⟨?_, ?_, ?_⟩
    · have hj01 : j = 0 ∨ j = 1 := by omega
      rcases hj01 with rfl | rfl
      · left; show right - 0 = right; omega
      · right; rfl
    · show qr.size - 1 - vert < qr.size; omega
    · exact hu
  · rw [← Option.some.inj hsome]
    refine ⟨?_, ?_, ?_⟩
    · have hj01 : j = 0 ∨ j = 1 := by omega
      rcases hj01 with rfl | rfl
      · left; show right - 0 = right; omega
      · right; rfl
    · show vert < qr.size; exact hvert
    · exact hu2

theorem scanStrip_snd (qr : QrCode) (right : Nat) (y : Nat) :
    ∀ p ∈ (List.filterMap (fun j =>
        if (qr.module (right - j) y).isUnfilled = true then some ((right - j), y) else none)
          (List.range 2)), p.2 = y := by
  intro p hp
  simp only [List.mem_filterMap, List.mem_range] at hp
  obtain ⟨j, _, hj⟩ := hp
  split_ifs at hj
  rw [← Option.some.inj hj]

theorem scanStrip_nodup (qr : QrCode) (right : Nat) (h1 : 1 ≤ right) :
    (scanStrip qr right).Nodup := by
  unfold scanStrip
  rw [List.nodup_flatMap]
  constructor
  · intro vert _
    have hinner : ∀ y : Nat, (List.filterMap (fun j =>
        if (qr.module (right - j) y).isUnfilled = true then some ((right - j), y) else none)
          (List.range 2)).Nodup := by
      intro y
      have h2 : List.range 2 = [0, 1] := rfl
      rw [h2]
      by_cases hu0 : (qr.module right y).isUnfilled = true <;>
        by_cases hu1 : (qr.module (right - 1) y).isUnfilled = true <;>
          simp [List.filterMap_cons, hu0, hu1, Prod.ext_iff] <;> omega
    exact hinner _
  · refine (List.pairwise_lt_range _).imp_of_mem ?_
    intro a b ha hb hab
    intro p hpa hpb
    have h2a := scanStrip_snd qr right _ p hpa
    have h2b := scanStrip_snd qr right _ p hpb
    rw [h2a] at h2b
    rw [List.mem_range] at ha hb
    split at h2b <;> omega

theorem makeZigZagScan_nodup (qr : QrCode) : qr.makeZigZagScan.Nodup := by
  unfold QrCode.makeZigZagScan
  rw [List.nodup_flatMap]
  constructor
  · intro r hr
    exact scanStrip_nodup qr r (zigZagRights_bounds _ r hr).1
  · refine (zigZagRights_pairwise _).imp_of_mem ?_
    intro a b ha hb hab
    intro p hpa hpb
    have hA := (scanStrip_mem qr a p hpa).1
    have hB := (scanStrip_mem qr b p hpb).1
    have h1a := (zigZagRights_bounds _ a ha).1
    have h1b := (zigZagRights_bounds _ b hb).1
    rcases hA with h | h <;> rcases hB with h' | h' <;> omega

theorem makeZigZagScan_bounds (qr : QrCode) :
    ∀ p ∈ qr.makeZigZagScan, p.1 < qr.size ∧ p.2 < qr.size := by
  intro p hp
  unfold QrCode.makeZigZagScan at hp
  rw [List.mem_flatMap] at hp
  obtain ⟨r, hr, hpr⟩ := hp
  have hb := zigZagRights_bounds _ r hr
  have hm := scanStrip_mem qr r p hpr
  refine ⟨?_, hm.2.1⟩
  rcases hm.1 with h | h <;> omega

theorem codewordWrites_length (data : List Nat) :
    ∀ (scan : List (Nat × Nat)) (i0 : Nat),
      (codewordWrites data i0 scan).length = scan.length := by
  intro scan
  induction scan with
  | nil => intro i0; rfl
  | cons xy rest ih =>
      intro i0
      simp only [codewordWrites, List.length_cons, ih]

theorem codewordWrites_map_posW (data : List Nat) :
    ∀ (scan : List (Nat × Nat)) (i0 : Nat),
      (codewordWrites data i0 scan).map posW = scan := by
  intro scan
  induction scan with
  | nil => intro i0; rfl
  | cons xy rest ih =>
      intro i0
      simp only [codewordWrites, List.map_cons, ih]
      split <;> rfl

theorem codewordWrites_getElem (data : List Nat) :
    ∀ (scan : List (Nat × Nat)) (i0 k : Nat) (hk : k < scan.length),
      (codewordWrites data i0 scan).get
          ⟨k, by rw [codewordWrites_length]; exact hk⟩ =
        ((scan.get ⟨k, hk⟩).1, (scan.get ⟨k, hk⟩).2, cwValue data (i0 + k)) := by
  intro scan
  induction scan with
  | nil => intro i0 k hk; simp at hk
  | cons xy rest ih =>
      intro i0 k hk
      cases k with
      | zero =>
          show (if i0 < data.length * 8 then _ else _) = _
          unfold cwValue
          rw [Nat.add_zero]
          split <;> rfl
      | succ k =>
          have hk' : k < rest.length := Nat.lt_of_succ_lt_succ hk
          have := ih (i0 + 1) k hk'
          have harith : i0 + 1 + k = i0 + (k + 1) := by omega
          rw [harith] at this
          exact this

/-- When the write positions are distinct, every listed write lands with its
value. -/
theorem QrCode.module_applyWrites_nodup {qr : QrCode} {ws : List Write}
    (hsh : qr.WellShaped) (hnd : (ws.map posW).Nodup) {w : Write} (hw : w ∈ ws)
    (hx : w.1 < qr.size) (hy : w.2.1 < qr.size) :
    (qr.applyWrites ws).module w.1 w.2.1 = w.2.2 := by
  induction ws generalizing qr with
  | nil => simp at hw
  | cons w0 rest ih =>
      rw [QrCode.applyWrites_cons]
      rw [List.map_cons, List.nodup_cons] at hnd
      rcases List.mem_cons.1 hw with rfl | hw'
      · have hnot : ∀ w' ∈ rest, posW w' ≠ (w.1, w.2.1) := by
          intro w' hw'' hc
          apply hnd.1
          show posW w ∈ List.map posW rest
          have hww : posW w = posW w' := by rw [hc]; rfl
          rw [hww]
          exact List.mem_map_of_mem posW hw''
        rw [QrCode.module_applyWrites_notmem _ hnot]
        apply QrCode.module_setModule_self
        · rw [hsh.1]; exact hx
        · rw [QrCode.col_length_of_wellShaped hsh hx]; exact hy
      · exact ih (QrCode.wellShaped_setModule hsh ..) hnd.2 hw'
          (by rw [QrCode.size_setModule]; exact hx)
          (by rw [QrCode.size_setModule]; exact hy)

theorem foldl_congr_mem {α β : Type} (l : List α) (f g : β → α → β) (a : β)
    (h : ∀ b : β, ∀ x ∈ l, f b x = g b x) : l.foldl f a = l.foldl g a := by
  induction l generalizing a with
  | nil => rfl
  | cons x xs ih =>
      rw [List.foldl_cons, List.foldl_cons, h a x (List.mem_cons_self ..)]
      exact ih _ (fun b x' hx' => h b x' (List.mem_cons_of_mem _ hx'))

theorem idx_div8 (k j : Nat) (hj : j < 8) : (8 * k + j) >>> 3 = k := by
  rw [Nat.shiftRight_eq_div_pow]
  norm_num
  omega

theorem idx_and7 (k j : Nat) (hj : j < 8) : (8 * k + j) &&& 7 = j := by
  have h := Nat.and_pow_two_sub_one_eq_mod (8 * k + j) 3
  norm_num at h
  rw [h]
  omega

/-- Kernel-checked MSB-first byte recomposition for every byte value. -/
theorem byte_recompose : ∀ b, b < 256 →
    (List.range 8).foldl (fun acc j =>
      acc * 2 + (if QrCode.getBit b (7 - j) then 1 else 0)) 0 = b := by
  decide

/-- C1: for every version in [1,40], every level, any successfully built
function-pattern grid, and every byte sequence accepted by `drawCodewords`
(in particular of the exact expected length `⌊raw/8⌋`), writing the bytes
along the zig-zag scan and reading the stored bits back in the same scan
order, MSB first per byte, reproduces the byte sequence exactly. -/
theorem C1_codeword_roundtrip (v : Nat) (ecl : ErrorCorrectionLevel)
    (mask : Option Nat) (g : QrCode) (h1 : 1 ≤ v) (h2 : v ≤ 40)
    (hbuild : buildFunctionPatterns v ecl mask = some g)
    (data : List Nat) (hbytes : ∀ b ∈ data, b < 256)
    (g2 : QrCode) (hdraw : g.drawCodewords data g.makeZigZagScan = some g2) :
    readCodewordsBack g2 g.makeZigZagScan data.length = data := by
  have hg := buildFunctionPatterns_inv v ecl mask g h2 hbuild
  subst hg
  set G := (QrCode.new v ecl).applyWrites
    (structuralWrites v (v * 4 + 17) (QrCode.formatBitsValue ecl mask)
      (versionBitsValue v)) with hGdef
  have hsh : G.WellShaped :=
    QrCode.wellShaped_applyWrites (QrCode.wellShaped_new v ecl) _
  have hver : G.version = v := (QrCode.version_applyWrites _ _).trans rfl
  have hscan_len : G.makeZigZagScan.length = (QrCode.getNumRawDataModules v).getD 0 :=
    length_scan_structural v ecl _ _ h1 h2
  obtain ⟨raw, hraw⟩ := getNumRawDataModules_isSome v h1 h2
  unfold QrCode.drawCodewords at hdraw
  rw [hver, hraw] at hdraw
  have hdraw2 : (if data.length ≠ raw / 8 then none
      else some (G.applyWrites (codewordWrites data 0 G.makeZigZagScan))) = some g2 :=
    hdraw
  split_ifs at hdraw2 with hne
  have hlen : data.length = raw / 8 := by omega
  have hg2 : g2 = G.applyWrites (codewordWrites data 0 G.makeZigZagScan) :=
    (Option.some.inj hdraw2).symm
  subst hg2
  set scan := G.makeZigZagScan with hscandef
  have hnd : scan.Nodup := makeZigZagScan_nodup G
  have hbounds := makeZigZagScan_bounds G
  have hslen : scan.length = raw := by
    rw [hraw] at hscan_len
    exact hscan_len
  have h8 : 8 * data.length ≤ scan.length := by
    rw [hslen, hlen]
    omega
  have hmod : ∀ i (hi : i < scan.length),
      (G.applyWrites (codewordWrites data 0 scan)).module
        (scan.get ⟨i, hi⟩).1 (scan.get ⟨i, hi⟩).2 = cwValue data i := by
    intro i hi
    have hw := codewordWrites_getElem data scan 0 i hi
    have hmem : (codewordWrites data 0 scan).get
        ⟨i, by rw [codewordWrites_length]; exact hi⟩ ∈ codewordWrites data 0 scan :=
      List.get_mem ..
    rw [hw] at hmem
    have hps : scan.get ⟨i, hi⟩ ∈ scan := List.get_mem ..
    have hbp := hbounds _ hps
    have hres := QrCode.module_applyWrites_nodup hsh
      (by rw [codewordWrites_map_posW]; exact hnd) hmem hbp.1 hbp.2
    rw [Nat.zero_add] at hres
    exact hres
  unfold readCodewordsBack
  apply List.ext_getElem
  · simp
  · intro k hk1 hk2
    simp only [List.getElem_map, List.getElem_range]
    have hkd : k < data.length := hk2
    have hbd : data.getD k 0 = data[k] := by
      rw [List.getD_eq_getElem?_getD, List.getElem?_eq_getElem hkd]
      rfl
    have hfold : (List.range 8).foldl (fun acc j => acc * 2 +
        (if ((G.applyWrites (codewordWrites data 0 scan)).module
            (scan.getD (8 * k + j) (0, 0)).1
            (scan.getD (8 * k + j) (0, 0)).2).colorD
          then 1 else 0)) 0 =
        (List.range 8).foldl (fun acc j => acc * 2 +
          (if QrCode.getBit data[k] (7 - j) then 1 else 0)) 0 := by
      apply foldl_congr_mem
      intro acc j hj
      rw [List.mem_range] at hj
      have hidx : 8 * k + j < scan.length := by omega
      have hgd : scan.getD (8 * k + j) (0, 0) = scan.get ⟨8 * k + j, hidx⟩ := by
        rw [List.getD_eq_getElem?_getD, List.getElem?_eq_getElem hidx]
        rfl
      rw [hgd, hmod (8 * k + j) hidx]
      unfold cwValue
      rw [if_pos (show 8 * k + j < data.length * 8 by omega),
        idx_div8 k j hj, idx_and7 k j hj, hbd]
      rfl
    rw [hfold]
    exact byte_recompose data[k] (hbytes _ (List.getElem_mem hkd))

/-- Witness for C1 at version 1, level LOW, blank mask, 26 zero bytes. -/
theorem C1_witness :
    readCodewordsBack
      (((QrCode.new 1 .LOW).applyWrites (structuralWrites 1 (1 * 4 + 17)
          (QrCode.formatBitsValue .LOW none) (versionBitsValue 1))).applyWrites
        (codewordWrites (List.replicate 26 0) 0
          (((QrCode.new 1 .LOW).applyWrites (structuralWrites 1 (1 * 4 + 17)
            (QrCode.formatBitsValue .LOW none) (versionBitsValue 1))).makeZigZagScan)))
      (((QrCode.new 1 .LOW).applyWrites (structuralWrites 1 (1 * 4 + 17)
        (QrCode.formatBitsValue .LOW none) (versionBitsValue 1))).makeZigZagScan)
      (List.replicate 26 0).length = List.replicate 26 0 :=
  C1_codeword_roundtrip 1 .LOW none _ (by decide) (by decide)
    (buildFunctionPatterns_eq 1 .LOW none (by decide) (by omega))
    (List.replicate 26 0)
    (fun b hb => by rw [List.eq_of_mem_replicate hb]; omega)
    _ rfl

end Qrgen


